import Mathlib

/-!
Verification development for the 3D scene renderer declared in
`src/veusz/helpers/src/threed/scene.h`.

The repository ships only the header: the class `Scene` with its
`RenderMode` enumeration, the inline constructor, the member fields
`mode`, `fragments`, `draworder`, and the declarations (plus one comment)
of `render`, `projectFragments`, `splitIntersectIn3D`, `doDrawing`,
`fineZCompare`, `insertFragmentsIntoDrawOrder`, `renderPainters` and
`renderBSP`.  The method bodies live in a `scene.cpp` that is not part of
the sources, so the behaviour of each operation below is modelled from
the design specification; whatever the header itself fixes (the
enumeration, the constructor, the member list, the parameter lists, the
comment on `insertFragmentsIntoDrawOrder`) is taken from the header.

Geometry is embedded over `ℤ` so that every definition is executable
down to the kernel; the one division (the interpolation parameter of a
split's crossing point) is integer division, a modelling simplification
that no claim below depends on.
-/

/-- A 3D point with rational coordinates. -/
structure Vec3 where
  x : ℤ
  y : ℤ
  z : ℤ
deriving DecidableEq, Repr

/-- Modelled from the spec: the geometry kind of a fragment
(polygon, path/line segment, or point marker). -/
inductive FragmentType where
  | polygon
  | lineseg
  | pointmark
deriving DecidableEq, Repr

/-- Modelled from the spec (§3 data model): a flat primitive with 3D
vertices, a cached screen-space projection (`screen`), cached per-vertex
camera depths (`depths`), style attributes, a back-reference to the
originating drawable object, the split-recursion depth of its lineage,
and an arena validity flag (`live`) that is cleared when the fragment is
superseded by a split. -/
structure Fragment where
  ftype : FragmentType
  points : List Vec3
  screen : List (ℤ × ℤ)
  depths : List ℤ
  style : ℕ
  linewidth : ℤ
  object : ℕ
  splitDepth : ℕ
  live : Bool
deriving DecidableEq, Repr

instance : Inhabited Fragment :=
  ⟨⟨FragmentType.polygon, [], [], [], 0, 0, 0, 0, false⟩⟩

/-- Modelled from the spec: the camera is an external collaborator that
projects a 3D point to screen x, screen y and a camera-space depth. -/
def Camera : Type := Vec3 → ℤ × ℤ × ℤ

/-- The viewport rectangle (x1,y1,x2,y2) passed to `Scene::render`. -/
structure Viewport where
  x1 : ℤ
  y1 : ℤ
  x2 : ℤ
  y2 : ℤ
deriving DecidableEq, Repr

/-- Maximum of a list of rationals (0 for the empty list). -/
def listMax : List ℤ → ℤ
  | [] => 0
  | a :: t => t.foldl max a

/-- Minimum of a list of rationals (0 for the empty list). -/
def listMin : List ℤ → ℤ
  | [] => 0
  | a :: t => t.foldl min a

/-- Farthest-point depth of a fragment: the representative depth used
for back-to-front ordering (larger = farther from the camera). -/
def Fragment.maxDepth (f : Fragment) : ℤ := listMax f.depths

/-- Nearest-point depth of a fragment. -/
def Fragment.minDepth (f : Fragment) : ℤ := listMin f.depths

/-- The screen-space x coordinates of a fragment's cached projection. -/
def Fragment.sxs (f : Fragment) : List ℤ := f.screen.map Prod.fst

/-- The screen-space y coordinates of a fragment's cached projection. -/
def Fragment.sys (f : Fragment) : List ℤ := f.screen.map Prod.snd

/-- Two closed intervals [a1,a2] and [b1,b2] overlap. -/
def rangesOverlap (a1 a2 b1 b2 : ℤ) : Bool :=
  decide (a1 ≤ b2) && decide (b1 ≤ a2)

/-- Modelled from the spec: the projected screen-space footprints of two
fragments overlap (bounding-box test). -/
def screenOverlap (f g : Fragment) : Bool :=
  rangesOverlap (listMin f.sxs) (listMax f.sxs) (listMin g.sxs) (listMax g.sxs)
    && rangesOverlap (listMin f.sys) (listMax f.sys) (listMin g.sys) (listMax g.sys)

/-- Modelled from the spec: the camera-space depth ranges of two
fragments overlap (their order is ambiguous). -/
def depthOverlap (f g : Fragment) : Bool :=
  rangesOverlap f.minDepth f.maxDepth g.minDepth g.maxDepth

/-- Modelled from the spec (§4.3): the exact ordering predicate supplied
by `fineZCompare`: fragment `i` is drawn no later than fragment `j` when
`i`'s farthest point is deeper, with the deterministic index tie-break
(lower original index first) on equal depths.  The painter-mode sort
uses the same farthest-point representative depth, descending. -/
def fineZCompare (fs : List Fragment) (i j : ℕ) : Prop :=
  (fs.getD j default).maxDepth < (fs.getD i default).maxDepth
    ∨ ((fs.getD i default).maxDepth = (fs.getD j default).maxDepth ∧ i ≤ j)

instance (fs : List Fragment) : DecidableRel (fineZCompare fs) := fun i j => by
  unfold fineZCompare
  infer_instance

/-- The `Scene::RenderMode` enumeration from scene.h. -/
inductive RenderMode where
  | RENDER_PAINTERS
  | RENDER_BSP
deriving DecidableEq, Repr

/-- The `Scene` class state from scene.h: the mode chosen at
construction, the fragment buffer and the draw-order index list. -/
structure Scene where
  mode : RenderMode
  fragments : List Fragment
  draworder : List ℕ
deriving Repr

/-- The inline constructor `Scene(RenderMode _mode) : mode(_mode) {}`
from scene.h: `mode` is initialised from the argument and the two
vector members are default-constructed empty. -/
def Scene.construct (m : RenderMode) : Scene :=
  { mode := m, fragments := [], draworder := [] }

/-- Modelled from the spec (§4.1): a fragment whose projected geometry
lies entirely outside the viewport rectangle (bounding-box disjoint
from the rectangle). -/
def outsideViewport (v : Viewport) (scr : List (ℤ × ℤ)) : Bool :=
  scr.all (fun p => decide (p.1 < v.x1)) || scr.all (fun p => decide (v.x2 < p.1))
    || scr.all (fun p => decide (p.2 < v.y1)) || scr.all (fun p => decide (v.y2 < p.2))

/-- The minimum number of vertices a fragment of each kind needs. -/
def FragmentType.minPoints : FragmentType → ℕ
  | FragmentType.polygon => 3
  | FragmentType.lineseg => 2
  | FragmentType.pointmark => 1

/-- Modelled from the spec (§4.1): a fragment that is degenerate after
projection (too few vertices, or zero extent on screen). -/
def degenerateScreen (t : FragmentType) (scr : List (ℤ × ℤ)) : Bool :=
  decide (scr.length < t.minPoints)
    || (decide (2 ≤ t.minPoints) && scr.all (fun p => decide (p = scr.headD (0, 0))))

/-- The screen-space projection of a fragment's 3D points. -/
def projScreen (cam : Camera) (pts : List Vec3) : List (ℤ × ℤ) :=
  pts.map fun p => ((cam p).1, (cam p).2.1)

/-- The camera-space depths of a fragment's 3D points. -/
def projDepths (cam : Camera) (pts : List Vec3) : List ℤ :=
  pts.map fun p => (cam p).2.2

/-- Modelled from the spec (§4.1): project a single fragment through the
camera: a degenerate fragment, or one entirely outside the viewport, is
silently dropped (`none`); otherwise the screen cache is filled in and
the fragment is retained live with split depth 0. -/
def projectOneFragment (cam : Camera) (v : Viewport) (f : Fragment) : Option Fragment :=
  if degenerateScreen f.ftype (projScreen cam f.points) then none
  else if outsideViewport v (projScreen cam f.points) then none
  else some { f with screen := projScreen cam f.points, depths := projDepths cam f.points,
                     splitDepth := 0, live := true }

/-- Modelled from the spec (§4.1): `Scene::projectFragments` — project
every input fragment, dropping the degenerate and the entirely
clipped-out ones. -/
def projectFragments (cam : Camera) (v : Viewport) (input : List Fragment) : List Fragment :=
  input.filterMap (projectOneFragment cam v)

/-- The initial back-to-front order: all fragment indices sorted by the
descending farthest-point representative depth with the index
tie-break. -/
def initialOrder (fs : List Fragment) : List ℕ :=
  List.insertionSort (fineZCompare fs) (List.range fs.length)

/-- Modelled from the spec (§4.4): `Scene::renderPainters` — sort all
post-clip fragments by the single representative depth value,
descending (farthest first). -/
def Scene.renderPainters (s : Scene) : Scene :=
  { s with draworder := initialOrder s.fragments }

/-- A primitive drawing command issued to the external drawing
surface. -/
structure DrawCmd where
  ftype : FragmentType
  pts : List (ℤ × ℤ)
  style : ℕ
  linewidth : ℤ
deriving DecidableEq, Repr

/-- Clamp a rational into a closed interval. -/
def clampQ (lo hi a : ℤ) : ℤ := max lo (min hi a)

/-- Clip a screen point to the viewport rectangle. -/
def clipPoint (v : Viewport) (p : ℤ × ℤ) : ℤ × ℤ :=
  (clampQ v.x1 v.x2 p.1, clampQ v.y1 v.y2 p.2)

/-- Modelled from the spec (§4.5): translate one fragment into its
drawing command: geometry clipped to the viewport at emission time,
line width scaled by the line-width scale factor. -/
def emitFragment (v : Viewport) (linescale : ℤ) (f : Fragment) : DrawCmd :=
  { ftype := f.ftype, pts := f.screen.map (clipPoint v),
    style := f.style, linewidth := f.linewidth * linescale }

/-- Modelled from the spec (§4.5): `Scene::doDrawing` — for each index
in the final draw order, in order, issue the corresponding primitive
drawing command. -/
def Scene.doDrawing (s : Scene) (v : Viewport) (linescale : ℤ) : List DrawCmd :=
  s.draworder.map fun i => emitFragment v linescale (s.fragments.getD i default)

/-- Vector difference. -/
def vsub (a b : Vec3) : Vec3 := ⟨a.x - b.x, a.y - b.y, a.z - b.z⟩

/-- Cross product. -/
def vcross (a b : Vec3) : Vec3 :=
  ⟨a.y * b.z - a.z * b.y, a.z * b.x - a.x * b.z, a.x * b.y - a.y * b.x⟩

/-- Dot product. -/
def vdot (a b : Vec3) : ℤ := a.x * b.x + a.y * b.y + a.z * b.z

/-- The supporting plane of a fragment, as (normal, offset); a fragment
with fewer than three vertices gets the zero normal (degenerate). -/
def fragPlane (f : Fragment) : Vec3 × ℤ :=
  match f.points with
  | p0 :: p1 :: p2 :: _ =>
      let n := vcross (vsub p1 p0) (vsub p2 p0)
      (n, vdot n p0)
  | _ => (⟨0, 0, 0⟩, 0)

/-- Signed side of a point with respect to a plane. -/
def sideOf (pl : Vec3 × ℤ) (p : Vec3) : ℤ := vdot pl.1 p - pl.2

/-- A fragment has vertices strictly on both sides of a plane. -/
def strictlyCrosses (pl : Vec3 × ℤ) (f : Fragment) : Bool :=
  (f.points.any fun p => decide (0 < sideOf pl p))
    && (f.points.any fun p => decide (sideOf pl p < 0))

/-- Modelled from the spec (§4.2): the pairwise 3D intersection test —
two fragments interpenetrate when each one has vertices strictly on
both sides of the other's supporting plane.  Coplanar or edge-touching
configurations (no strict crossing) degrade to the non-intersecting
comparison path. -/
def intersectIn3D (f g : Fragment) : Bool :=
  strictlyCrosses (fragPlane g) f && strictlyCrosses (fragPlane f) g

/-- Linear interpolation between two 3D points. -/
def vlerp (a b : Vec3) (t : ℤ) : Vec3 :=
  ⟨a.x + t * (b.x - a.x), a.y + t * (b.y - a.y), a.z + t * (b.z - a.z)⟩

/-- The crossing point of edge (a,b) with a plane. -/
def edgeCross (pl : Vec3 × ℤ) (a b : Vec3) : Vec3 :=
  vlerp a b (sideOf pl a / (sideOf pl a - sideOf pl b))

/-- One Sutherland-Hodgman step: the contribution of the directed edge
(a,b) to the clip of a polygon against one side of a plane. -/
def clipEdgeStep (pl : Vec3 × ℤ) (pos : Bool) (a b : Vec3) : List Vec3 :=
  let ins := fun p : Vec3 => if pos then decide (0 ≤ sideOf pl p) else decide (sideOf pl p ≤ 0)
  if ins b then (if ins a then [b] else [edgeCross pl a b, b])
  else (if ins a then [edgeCross pl a b] else [])

/-- Clip a closed polygon (vertex list) against one side of a plane. -/
def clipPolyHalf (pl : Vec3 × ℤ) (pos : Bool) (pts : List Vec3) : List Vec3 :=
  match pts with
  | [] => []
  | p0 :: _ =>
      ((pts.zip (pts.drop 1 ++ [p0])).map fun e => clipEdgeStep pl pos e.1 e.2).flatten

/-- Modelled from the spec (§4.2): one child fragment of a split — the
piece of `f` on one side of the plane, or `none` when that piece is
degenerate.  Children keep the parent's style and object back-reference
and record one more level of split recursion. -/
def clipHalf (pl : Vec3 × ℤ) (pos : Bool) (f : Fragment) : Option Fragment :=
  if (clipPolyHalf pl pos f.points).length < 3 then none
  else some { f with points := clipPolyHalf pl pos f.points, screen := [], depths := [],
                     splitDepth := f.splitDepth + 1, live := true }

/-- Recompute the cached projection of a fragment (used for the newly
created children of a split). -/
def reproject (cam : Camera) (f : Fragment) : Fragment :=
  { f with screen := projScreen cam f.points, depths := projDepths cam f.points }

/-- Modelled from the spec (§4.2): the replacement fragments of one
parent split along the other fragment's supporting plane, projected
through the camera. -/
def splitChildren (cam : Camera) (pl : Vec3 × ℤ) (f : Fragment) : List Fragment :=
  ((clipHalf pl true f).toList ++ (clipHalf pl false f).toList).map (reproject cam)

/-- Modelled from the spec (§4.3): the bounded-region re-sort at the
heart of draw-order maintenance: positions `lo..hi` of the order are
replaced by the depth-sort (by `fineZCompare`) of the old entries of
that region minus `dropold`, plus `newelts`; entries outside the region
are not touched. -/
def resortRange (fs : List Fragment) (dord : List ℕ) (lo hi : ℕ)
    (dropold newelts : List ℕ) : List ℕ :=
  let region := (dord.drop lo).take (hi + 1 - lo)
  let kept := region.filter fun k => !(dropold.contains k)
  dord.take lo ++ List.insertionSort (fineZCompare fs) (kept ++ newelts) ++ dord.drop (hi + 1)

/-- From scene.h: "insert newnum1 fragments at idx1 and newnum2
fragments at idx2 into the depths array from the end of fragments; also
sort the idx1->idx2+newnum1+newnum2 in depth order".  Modelled from the
spec (§4.3): the stale entries for `idx1` and `idx2` are removed from
the draw order, the new child indices (taken from the end of the
fragment buffer) are inserted, and only the region between the two
stale positions is re-sorted by depth. -/
def Scene.insertFragmentsIntoDrawOrder (s : Scene)
    (idx1 newnum1 idx2 newnum2 : ℕ) : Scene :=
  let nnew := newnum1 + newnum2
  let base := s.fragments.length - nnew
  let newidx := (List.range nnew).map fun k => base + k
  let p1 := s.draworder.indexOf idx1
  let p2 := s.draworder.indexOf idx2
  { s with draworder :=
      resortRange s.fragments s.draworder (min p1 p2) (max p1 p2) [idx1, idx2] newidx }

/-- Modelled from the spec (§4.3/§4.4): resolve a confirmed
non-intersecting (or recursion-bound-hit) ambiguous pair by re-sorting
the draw-order region between the two entries with the `fineZCompare`
predicate; no fragment is split. -/
def Scene.resolvePair (s : Scene) (idx1 idx2 : ℕ) : Scene :=
  let p1 := s.draworder.indexOf idx1
  let p2 := s.draworder.indexOf idx2
  { s with draworder :=
      resortRange s.fragments s.draworder (min p1 p2) (max p1 p2) [] [] }

/-- Mark the fragment at an index as superseded (arena validity flag). -/
def markDead (fs : List Fragment) (i : ℕ) : List Fragment :=
  fs.set i { fs.getD i default with live := false }

/-- Modelled from the spec (§4.2): split an intersecting pair: each
fragment is split along the other's supporting plane, the two original
buffer slots are marked consumed, the children are appended to the end
of the buffer, and the draw order is repaired locally. -/
def Scene.splitPair (s : Scene) (cam : Camera) (idx1 idx2 : ℕ) : Scene :=
  let f1 := s.fragments.getD idx1 default
  let f2 := s.fragments.getD idx2 default
  let ch1 := splitChildren cam (fragPlane f2) f1
  let ch2 := splitChildren cam (fragPlane f1) f2
  let s2 : Scene :=
    { s with fragments := (markDead (markDead s.fragments idx1) idx2) ++ ch1 ++ ch2 }
  s2.insertFragmentsIntoDrawOrder idx1 ch1.length idx2 ch2.length

/-- Modelled from the spec (§4.4, §9): the tunable maximum
split-recursion depth; past it an ambiguous pair is resolved by the
tie-break comparison instead of being split further. -/
def maxSplitDepth : ℕ := 8

/-- The state threaded through the BSP fixed-point iteration: the scene
plus the set of ambiguous pairs already resolved without a split. -/
structure BspState where
  scene : Scene
  resolved : List (ℕ × ℕ)

/-- Whether fragments at two indices form an ambiguous pair: both live,
projected footprints overlap and depth ranges overlap. -/
def ambiguousPair (fs : List Fragment) (i j : ℕ) : Bool :=
  (fs.getD i default).live && (fs.getD j default).live
    && screenOverlap (fs.getD i default) (fs.getD j default)
    && depthOverlap (fs.getD i default) (fs.getD j default)

/-- The first not-yet-resolved ambiguous partner of `idx1` (scanning
larger indices). -/
def findPartner (st : BspState) (idx1 : ℕ) : Option ℕ :=
  (List.range st.scene.fragments.length).find? fun idx2 =>
    decide (idx1 < idx2) && ambiguousPair st.scene.fragments idx1 idx2
      && !(st.resolved.contains (idx1, idx2))

/-- Whether an ambiguous pair is split (it interpenetrates in 3D and
both members are within the split-recursion bound) rather than resolved
by the tie-break comparison. -/
def splitAllowed (fs : List Fragment) (idx1 idx2 : ℕ) : Bool :=
  decide ((fs.getD idx1 default).splitDepth < maxSplitDepth)
    && decide ((fs.getD idx2 default).splitDepth < maxSplitDepth)
    && intersectIn3D (fs.getD idx1 default) (fs.getD idx2 default)

/-- Modelled from the spec (§4.2): `Scene::splitIntersectIn3D` — per its
declaration `void splitIntersectIn3D(unsigned idx1, const Camera& cam)`
it receives a single fragment index and the camera; it finds a
candidate partner `idx2` for `idx1` itself (projected footprints and
depth ranges overlapping), determines whether the two fragments
geometrically intersect in 3D, and either splits both along the
intersection (within the recursion bound) or resolves the pair by the
deterministic tie-break comparison. -/
def splitIntersectIn3D (idx1 : ℕ) (cam : Camera) (st : BspState) : BspState :=
  match findPartner st idx1 with
  | none => st
  | some idx2 =>
      if splitAllowed st.scene.fragments idx1 idx2 then
        { st with scene := st.scene.splitPair cam idx1 idx2 }
      else
        { scene := st.scene.resolvePair idx1 idx2,
          resolved := (idx1, idx2) :: st.resolved }

/-- The first index that still has an unresolved ambiguous partner. -/
def findAmbIdx1 (st : BspState) : Option ℕ :=
  (List.range st.scene.fragments.length).find? fun i => (findPartner st i).isSome

/-- Modelled from the spec (§4.4): the BSP fixed-point iteration —
repeatedly pick an index with an unresolved ambiguous partner and let
`splitIntersectIn3D` handle it, until no ambiguous overlapping pair
remains (the terminal state) or the fuel safety limit runs out. -/
def bspIter (cam : Camera) : ℕ → BspState → BspState
  | 0, st => st
  | fuel + 1, st =>
      match findAmbIdx1 st with
      | none => st
      | some i => bspIter cam fuel (splitIntersectIn3D i cam st)

/-- The split budget of one fragment: how much more splitting its
subtree can cause (0 once dead). -/
def fragWeight (f : Fragment) : ℕ :=
  if f.live then 4 ^ (maxSplitDepth - f.splitDepth) else 0

/-- The split budget of the whole buffer: an upper bound on the number
of splits the recursion-depth guard still allows. -/
def splitBudget (fs : List Fragment) : ℕ := (fs.map fragWeight).sum

/-- An upper bound on the fragment-buffer length at any later point of
the iteration. -/
def lenBound (fs : List Fragment) : ℕ := fs.length + 4 * splitBudget fs

/-- The termination measure of the BSP iteration. -/
def bspMeasure (st : BspState) : ℕ :=
  splitBudget st.scene.fragments * ((lenBound st.scene.fragments) ^ 2 + 1)
    + ((lenBound st.scene.fragments) ^ 2 - st.resolved.length)

/-- The fuel safety limit used by `renderBSP`: strictly more than the
termination measure, so the fixed point is always reached. -/
def bspFuel (s : Scene) : ℕ := bspMeasure ⟨s, []⟩ + 1

/-- Modelled from the spec (§4.4): `Scene::renderBSP` — start from the
depth-sorted order and run the split-and-sort iteration to its terminal
state. -/
def Scene.renderBSP (s : Scene) (cam : Camera) : Scene :=
  let s0 := s.renderPainters
  (bspIter cam (bspFuel s0) ⟨s0, []⟩).scene

/-- Modelled from the spec (§2, §6): `Scene::render` — build the
fragment buffer by projecting the flat fragment list supplied by the
object graph, run the ordering strategy selected at construction, and
emit the drawing commands in the final order. -/
def Scene.render (s : Scene) (input : List Fragment) (cam : Camera)
    (v : Viewport) (linescale : ℤ) : Scene × List DrawCmd :=
  let s1 : Scene := { s with fragments := projectFragments cam v input, draworder := [] }
  let s2 := match s1.mode with
    | RenderMode.RENDER_PAINTERS => s1.renderPainters
    | RenderMode.RENDER_BSP => s1.renderBSP cam
  (s2, s2.doDrawing v linescale)

/-- The indices of the currently live fragments, in index order. -/
def liveIndices (fs : List Fragment) : List ℕ :=
  (List.range fs.length).filter fun i => (fs.getD i default).live

/-- The permutation invariant: the draw order lists exactly the
currently live fragment indices, each exactly once. -/
def drawOrderInv (s : Scene) : Prop :=
  s.draworder.Perm (liveIndices s.fragments)

/-- Fragment `i` lies entirely in front of fragment `j` in the view
direction: every projected depth of `i` is strictly smaller than every
projected depth of `j` (both nonempty). -/
def entirelyInFront (fs : List Fragment) (i j : ℕ) : Prop :=
  (fs.getD i default).depths ≠ [] ∧ (fs.getD j default).depths ≠ [] ∧
    ∀ d ∈ (fs.getD i default).depths, ∀ e ∈ (fs.getD j default).depths, d < e

instance (fs : List Fragment) (i j : ℕ) : Decidable (entirelyInFront fs i j) := by
  unfold entirelyInFront
  infer_instance

instance (fs : List Fragment) : IsTotal ℕ (fineZCompare fs) := by
  refine ⟨fun i j => ?_⟩
  unfold fineZCompare
  rcases lt_trichotomy (fs.getD i default).maxDepth (fs.getD j default).maxDepth with h | h | h
  · exact Or.inr (Or.inl h)
  · rcases Nat.le_total i j with hij | hij
    · exact Or.inl (Or.inr ⟨h, hij⟩)
    · exact Or.inr (Or.inr ⟨h.symm, hij⟩)
  · exact Or.inl (Or.inl h)

instance (fs : List Fragment) : IsTrans ℕ (fineZCompare fs) := by
  refine ⟨fun a b c h1 h2 => ?_⟩
  unfold fineZCompare at *
  rcases h1 with h1 | ⟨h1e, h1i⟩
  · rcases h2 with h2 | ⟨h2e, _⟩
    · exact Or.inl (h2.trans h1)
    · exact Or.inl (h2e ▸ h1)
  · rcases h2 with h2 | ⟨h2e, h2i⟩
    · exact Or.inl (h1e ▸ h2)
    · exact Or.inr ⟨h1e.trans h2e, h1i.trans h2i⟩

/-- The back-to-front law restricted to the first `n` fragment slots
(the original, pre-split fragments): whenever both are still live and
`i` is entirely in front of `j`, the farther fragment `j` occurs
before `i` in the draw order. -/
def orderOK (n : ℕ) (s : Scene) : Prop :=
  ∀ i j : ℕ, i < n → j < n →
    (s.fragments.getD i default).live = true →
    (s.fragments.getD j default).live = true →
    entirelyInFront s.fragments i j →
    [j, i].Sublist s.draworder

/-- The invariant bundle carried through the BSP iteration. -/
def bspInvariant (n : ℕ) (st : BspState) : Prop :=
  n ≤ st.scene.fragments.length ∧ drawOrderInv st.scene ∧ orderOK n st.scene

/-- Well-formedness of the resolved-pair bookkeeping. -/
def bspWf (st : BspState) : Prop :=
  st.resolved.Nodup
    ∧ ∀ p ∈ st.resolved, p.1 < p.2 ∧ p.2 < st.scene.fragments.length

/-- One abstract split step: which two fragments are split, and which
child fragments each contributes (any children at all, so the
permutation invariant is established for every possible split
outcome). -/
structure SplitCmd where
  idx1 : ℕ
  ch1 : List Fragment
  idx2 : ℕ
  ch2 : List Fragment

/-- Apply one abstract split step: mark the two parents superseded,
append the children to the end of the fragment buffer, and repair the
draw order with `insertFragmentsIntoDrawOrder`. -/
def applySplitCmd (s : Scene) (c : SplitCmd) : Scene :=
  Scene.insertFragmentsIntoDrawOrder
    { s with fragments := markDead (markDead s.fragments c.idx1) c.idx2 ++ c.ch1 ++ c.ch2 }
    c.idx1 c.ch1.length c.idx2 c.ch2.length

/-- A split step is valid when it splits two distinct live fragments
and its children are live. -/
def ValidSplit (s : Scene) (c : SplitCmd) : Prop :=
  c.idx1 < s.fragments.length ∧ c.idx2 < s.fragments.length ∧ c.idx1 ≠ c.idx2
    ∧ (s.fragments.getD c.idx1 default).live = true
    ∧ (s.fragments.getD c.idx2 default).live = true
    ∧ (∀ f ∈ c.ch1, f.live = true) ∧ (∀ f ∈ c.ch2, f.live = true)

instance (s : Scene) (c : SplitCmd) : Decidable (ValidSplit s c) := by
  unfold ValidSplit
  infer_instance

/-- A sequence of split steps each of which is valid in the state it is
applied to. -/
inductive ValidSeq : Scene → List SplitCmd → Prop
  | nil (s : Scene) : ValidSeq s []
  | cons {s : Scene} {c : SplitCmd} {cs : List SplitCmd} :
      ValidSplit s c → ValidSeq (applySplitCmd s c) cs → ValidSeq s (c :: cs)

/-- The object back-references present in a fragment buffer. -/
def objectsOf (fs : List Fragment) : List ℕ := fs.map Fragment.object

/-- The parameter list of the declaration
`void splitIntersectIn3D(unsigned idx1, const Camera& cam);` in
scene.h, as (type, name) pairs, in order. -/
def splitIntersectIn3D_declaredParams : List (String × String) :=
  [("unsigned", "idx1"), ("const Camera&", "cam")]

/-- An orthographic test camera: screen x, screen y and depth are the
point's x, y and z coordinates. -/
def camO : Camera := fun p => (p.x, p.y, p.z)

/-- A concrete test viewport. -/
def vp0 : Viewport := ⟨0, 0, 10, 10⟩

/-- An axis-aligned unprojected test quad at constant depth `z`. -/
def quadAt (z : ℤ) (obj : ℕ) : Fragment :=
  { ftype := FragmentType.polygon,
    points := [⟨1, 1, z⟩, ⟨4, 1, z⟩, ⟨4, 4, z⟩, ⟨1, 4, z⟩],
    screen := [], depths := [], style := 0, linewidth := 1, object := obj,
    splitDepth := 0, live := false }

/-- An unprojected test quad whose x extent is `x0..x0+3`. -/
def quadAtX (x0 z : ℤ) (obj : ℕ) : Fragment :=
  { ftype := FragmentType.polygon,
    points := [⟨x0, 1, z⟩, ⟨x0 + 3, 1, z⟩, ⟨x0 + 3, 4, z⟩, ⟨x0, 4, z⟩],
    screen := [], depths := [], style := 0, linewidth := 1, object := obj,
    splitDepth := 0, live := false }

/-- The three-quad scenario of the spec: non-intersecting quads at
depths 1, 2 and 3 from the camera. -/
def threeQuads : List Fragment := [quadAt 1 0, quadAt 2 1, quadAt 3 2]

/-- A projected fragment that is already live, for direct tests of the
draw-order maintenance operations. -/
def liveFrag (z : ℤ) (obj : ℕ) : Fragment :=
  { ftype := FragmentType.polygon,
    points := [⟨1, 1, z⟩, ⟨4, 1, z⟩, ⟨4, 4, z⟩],
    screen := [(1, 1), (4, 1), (4, 4)], depths := [z, z, z],
    style := 0, linewidth := 1, object := obj, splitDepth := 0, live := true }

/-- A concrete two-fragment scene used to exercise the split
bookkeeping directly. -/
def sceneTwo : Scene :=
  { mode := RenderMode.RENDER_BSP,
    fragments := [liveFrag 1 0, liveFrag 2 1],
    draworder := [1, 0] }

/-- A concrete abstract split step on `sceneTwo`. -/
def cmdTwo : SplitCmd :=
  { idx1 := 0, ch1 := [liveFrag 1 2], idx2 := 1, ch2 := [liveFrag 2 3] }

/-- A four-fragment scene in the state just after two children have
been appended by a split of fragments 0 and 1, ready for
`insertFragmentsIntoDrawOrder`. -/
def sceneFour : Scene :=
  { mode := RenderMode.RENDER_BSP,
    fragments := [liveFrag 1 0, liveFrag 2 1, liveFrag 3 2, liveFrag 4 3],
    draworder := [1, 0] }

/-- A BSP state holding two overlapping coplanar (hence ambiguous but
non-intersecting) quads. -/
def stAmb : BspState :=
  { scene :=
      { mode := RenderMode.RENDER_BSP,
        fragments := projectFragments camO vp0 [quadAt 1 0, quadAt 1 1],
        draworder := initialOrder (projectFragments camO vp0 [quadAt 1 0, quadAt 1 1]) },
    resolved := [] }

/-- A live projected fragment at the split-recursion bound. -/
def deepFrag (z : ℤ) (obj : ℕ) : Fragment :=
  { liveFrag z obj with splitDepth := maxSplitDepth }

/-- A BSP state with two ambiguous fragments both at the
split-recursion bound. -/
def stDeep : BspState :=
  { scene :=
      { mode := RenderMode.RENDER_BSP,
        fragments := [deepFrag 1 0, deepFrag 1 1],
        draworder := [0, 1] },
    resolved := [] }

set_option maxRecDepth 10000

theorem foldl_max_init_le (t : List ℤ) (a : ℤ) : a ≤ t.foldl max a := by
  induction t generalizing a with
  | nil => exact le_refl a
  | cons b t ih => exact le_trans (le_max_left a b) (ih (max a b))

theorem foldl_max_le_of_mem {t : List ℤ} {b : ℤ} (h : b ∈ t) (a : ℤ) :
    b ≤ t.foldl max a := by
  induction t generalizing a with
  | nil => cases h
  | cons c t ih =>
      rcases List.mem_cons.mp h with rfl | h2
      · exact le_trans (le_max_right a b) (foldl_max_init_le t (max a b))
      · exact ih h2 (max a c)

theorem foldl_max_mem (t : List ℤ) (a : ℤ) : t.foldl max a = a ∨ t.foldl max a ∈ t := by
  induction t generalizing a with
  | nil => exact Or.inl rfl
  | cons b t ih =>
      rcases ih (max a b) with h | h
      · rcases max_choice a b with hm | hm
        · exact Or.inl (by rw [List.foldl_cons, h, hm])
        · exact Or.inr (by rw [List.foldl_cons, h, hm]; exact List.mem_cons_self b t)
      · exact Or.inr (List.mem_cons_of_mem b h)

theorem listMax_mem {l : List ℤ} (h : l ≠ []) : listMax l ∈ l := by
  match l with
  | [] => exact absurd rfl h
  | a :: t =>
      rcases foldl_max_mem t a with h2 | h2
      · show t.foldl max a ∈ a :: t
        rw [h2]
        exact List.mem_cons_self a t
      · exact List.mem_cons_of_mem a h2

theorem le_listMax {l : List ℤ} {b : ℤ} (h : b ∈ l) : b ≤ listMax l := by
  match l with
  | a :: t =>
      rcases List.mem_cons.mp h with rfl | h2
      · exact foldl_max_init_le t b
      · exact foldl_max_le_of_mem h2 a

theorem entirelyInFront_maxDepth_lt {fs : List Fragment} {i j : ℕ}
    (h : entirelyInFront fs i j) :
    (fs.getD i default).maxDepth < (fs.getD j default).maxDepth := by
  obtain ⟨hi, hj, hlt⟩ := h
  have h1 : (fs.getD i default).maxDepth ∈ (fs.getD i default).depths := listMax_mem hi
  have h2 : (fs.getD j default).maxDepth ∈ (fs.getD j default).depths := listMax_mem hj
  exact hlt _ h1 _ h2

theorem entirelyInFront_not_fineZ {fs : List Fragment} {i j : ℕ}
    (h : entirelyInFront fs i j) : ¬ fineZCompare fs i j := by
  have hlt := entirelyInFront_maxDepth_lt h
  intro hf
  rcases hf with hf | ⟨hf, _⟩
  · exact absurd hlt (not_lt.mpr (le_of_lt hf))
  · exact absurd hf (ne_of_lt hlt)

theorem entirelyInFront_ne {fs : List Fragment} {i j : ℕ}
    (h : entirelyInFront fs i j) : i ≠ j := by
  intro he
  have hlt := entirelyInFront_maxDepth_lt h
  rw [he] at hlt
  exact lt_irrefl _ hlt

theorem pairwise_sublist_pair {α : Type} {r : α → α → Prop} {l : List α}
    (hp : l.Pairwise r) {i j : α} (hj : j ∈ l) (hi : i ∈ l)
    (hij : i ≠ j) (hnr : ¬ r i j) : [j, i].Sublist l := by
  induction l with
  | nil => cases hj
  | cons a t ih =>
      rcases List.pairwise_cons.mp hp with ⟨ha, hpt⟩
      rcases List.mem_cons.mp hj with rfl | hjt
      · have hit : i ∈ t := by
          rcases List.mem_cons.mp hi with rfl | h2
          · exact absurd rfl hij
          · exact h2
        exact (List.singleton_sublist.mpr hit).cons₂ j
      · rcases List.mem_cons.mp hi with rfl | hit
        · exact absurd (ha j hjt) hnr
        · exact (ih hpt hjt hit).cons a

theorem sublist_pair_append {α : Type} {x y : α} {l1 l2 : List α}
    (h : [x, y].Sublist (l1 ++ l2)) :
    [x, y].Sublist l1 ∨ [x, y].Sublist l2 ∨ (x ∈ l1 ∧ y ∈ l2) := by
  rcases List.sublist_append_iff.mp h with ⟨a, b, heq, h1, h2⟩
  match a, heq with
  | [], heq =>
      rw [List.nil_append] at heq
      rw [← heq] at h2
      exact Or.inr (Or.inl h2)
  | [u], heq =>
      rw [List.cons_append, List.nil_append] at heq
      injection heq with hxy htail
      rw [← hxy] at h1
      rw [← htail] at h2
      exact Or.inr (Or.inr ⟨List.singleton_sublist.mp h1, List.singleton_sublist.mp h2⟩)
  | [u, v], heq =>
      rw [List.cons_append, List.cons_append, List.nil_append] at heq
      injection heq with hxy htail
      injection htail with hyv hb
      rw [← hxy, ← hyv] at h1
      exact Or.inl h1
  | u :: v :: w :: rest, heq =>
      have hlen := congrArg List.length heq
      rw [List.length_append] at hlen
      simp at hlen
      omega

theorem indexOf_lt_of_mem_take {l : List ℕ} {x : ℕ} {n : ℕ}
    (h : x ∈ l.take n) : l.indexOf x < n := by
  induction l generalizing n with
  | nil => simp at h
  | cons a t ih =>
      match n with
      | 0 => simp at h
      | m + 1 =>
          rw [List.take_succ_cons] at h
          by_cases hax : a = x
          · subst hax
            simp [List.indexOf_cons]
          · rcases List.mem_cons.mp h with rfl | h2
            · exact absurd rfl hax
            · have := ih h2
              simp [List.indexOf_cons, hax]
              omega

theorem mem_take_of_indexOf_lt {l : List ℕ} {x : ℕ} {n : ℕ}
    (hm : x ∈ l) (h : l.indexOf x < n) : x ∈ l.take n := by
  induction l generalizing n with
  | nil => cases hm
  | cons a t ih =>
      by_cases hax : a = x
      · subst hax
        have hn : 0 < n := by
          simpa [List.indexOf_cons] using h
        match n, hn with
        | m + 1, _ => exact List.mem_cons_self a _
      · rcases List.mem_cons.mp hm with rfl | h2
        · exact absurd rfl hax
        · have hidx : t.indexOf x + 1 < n := by
            simpa [List.indexOf_cons, hax] using h
          match n, hidx with
          | m + 1, hidx =>
              rw [List.take_succ_cons]
              exact List.mem_cons_of_mem a (ih h2 (by omega))

theorem take_region_drop {α : Type} (l : List α) (lo hi : ℕ) (h : lo ≤ hi + 1) :
    l.take lo ++ (l.drop lo).take (hi + 1 - lo) ++ l.drop (hi + 1) = l := by
  have h1 : (l.drop lo).take (hi + 1 - lo) ++ l.drop (hi + 1) = l.drop lo := by
    have h2 : (l.drop lo).drop (hi + 1 - lo) = l.drop (hi + 1) := by
      rw [List.drop_drop]
      congr 1
      omega
    rw [← h2, List.take_append_drop]
  rw [List.append_assoc, h1, List.take_append_drop]

theorem resortRange_def (fs : List Fragment) (dord : List ℕ) (lo hi : ℕ)
    (dropold newelts : List ℕ) :
    resortRange fs dord lo hi dropold newelts =
      dord.take lo
        ++ List.insertionSort (fineZCompare fs)
             ((((dord.drop lo).take (hi + 1 - lo)).filter
                 (fun k => !(dropold.contains k))) ++ newelts)
        ++ dord.drop (hi + 1) := rfl

theorem resortRange_perm (fs : List Fragment) (dord : List ℕ) (lo hi : ℕ)
    (dropold newelts : List ℕ) :
    (resortRange fs dord lo hi dropold newelts).Perm
      ((dord.take lo
          ++ (((dord.drop lo).take (hi + 1 - lo)).filter
                (fun k => !(dropold.contains k)))
          ++ dord.drop (hi + 1)) ++ newelts) := by
  rw [resortRange_def, List.perm_iff_count]
  intro a
  have hmid := (List.perm_insertionSort (fineZCompare fs)
    ((((dord.drop lo).take (hi + 1 - lo)).filter (fun k => !(dropold.contains k)))
      ++ newelts)).count_eq a
  simp only [List.count_append] at *
  omega

theorem resortRange_nil_perm (fs : List Fragment) (dord : List ℕ) (lo hi : ℕ)
    (h : lo ≤ hi + 1) :
    (resortRange fs dord lo hi [] []).Perm dord := by
  have h1 := resortRange_perm fs dord lo hi [] []
  have h2 : (((dord.drop lo).take (hi + 1 - lo)).filter
      (fun k => !(([] : List ℕ).contains k))) = (dord.drop lo).take (hi + 1 - lo) := by
    apply List.filter_eq_self.mpr
    intro a _
    rfl
  rw [h2, List.append_nil, take_region_drop dord lo hi h] at h1
  exact h1

theorem mem_insertionSort_of_mem {fs : List Fragment} {l : List ℕ} {a : ℕ}
    (h : a ∈ l) : a ∈ List.insertionSort (fineZCompare fs) l :=
  (List.perm_insertionSort (fineZCompare fs) l).mem_iff.mpr h

theorem resort_preserves_before (fs' : List Fragment) (dord : List ℕ)
    (lo hi : ℕ) (dropold newelts : List ℕ) {i j : ℕ}
    (h : lo ≤ hi + 1) (hold : [j, i].Sublist dord)
    (hPi : dropold.contains i = false) (hPj : dropold.contains j = false)
    (hij : i ≠ j) (hnr : ¬ fineZCompare fs' i j) :
    [j, i].Sublist (resortRange fs' dord lo hi dropold newelts) := by
  set region := (dord.drop lo).take (hi + 1 - lo) with hregion
  set kept := region.filter (fun k => !(dropold.contains k)) with hkept
  set mid := List.insertionSort (fineZCompare fs') (kept ++ newelts) with hmid
  have hout : resortRange fs' dord lo hi dropold newelts
      = dord.take lo ++ (mid ++ dord.drop (hi + 1)) := by
    rw [resortRange_def, List.append_assoc]
  have hdec : dord = dord.take lo ++ (region ++ dord.drop (hi + 1)) := by
    rw [← List.append_assoc, hregion, take_region_drop dord lo hi h]
  have hmem_mid : ∀ x : ℕ, x ∈ region → dropold.contains x = false → x ∈ mid := by
    intro x hx hPx
    apply mem_insertionSort_of_mem
    apply List.mem_append_left
    rw [hkept]
    exact List.mem_filter.mpr ⟨hx, by rw [hPx]; rfl⟩
  have hsorted : mid.Pairwise (fineZCompare fs') :=
    List.sorted_insertionSort (fineZCompare fs') (kept ++ newelts)
  rw [hout]
  rw [hdec] at hold
  rcases sublist_pair_append hold with h1 | h1 | ⟨hjmem, himem⟩
  · exact h1.trans (List.sublist_append_left _ _)
  · rcases sublist_pair_append h1 with h2 | h2 | ⟨hjm2, him2⟩
    · have hji : j ∈ region ∧ i ∈ region := by
        have hsub := h2.subset
        exact ⟨hsub (List.mem_cons_self j [i]),
          hsub (List.mem_cons_of_mem j (List.mem_cons_self i []))⟩
      have hjm : j ∈ mid := hmem_mid j hji.1 hPj
      have him : i ∈ mid := hmem_mid i hji.2 hPi
      have hpair : [j, i].Sublist mid :=
        pairwise_sublist_pair hsorted hjm him hij hnr
      exact hpair.trans ((List.sublist_append_left mid _).trans
        (List.sublist_append_right _ _))
    · exact h2.trans ((List.sublist_append_right mid _).trans
        (List.sublist_append_right _ _))
    · have hji : [j] ++ [i] |>.Sublist (mid ++ dord.drop (hi + 1)) := by
        have hsj : [j].Sublist mid := List.singleton_sublist.mpr (hmem_mid j hjm2 hPj)
        have hsi : [i].Sublist (dord.drop (hi + 1)) := List.singleton_sublist.mpr him2
        exact hsj.append hsi
      exact hji.trans (List.sublist_append_right _ _)
  · have hsj : [j].Sublist (dord.take lo) := List.singleton_sublist.mpr hjmem
    have hsi : [i].Sublist (mid ++ dord.drop (hi + 1)) := by
      rcases List.mem_append.mp himem with h3 | h3
      · exact List.singleton_sublist.mpr (List.mem_append_left _ (hmem_mid i h3 hPi))
      · exact List.singleton_sublist.mpr (List.mem_append_right _ h3)
    exact hsj.append hsi

theorem mem_liveIndices {fs : List Fragment} {i : ℕ} :
    i ∈ liveIndices fs ↔ i < fs.length ∧ (fs.getD i default).live = true := by
  unfold liveIndices
  rw [List.mem_filter, List.mem_range]

theorem nodup_liveIndices (fs : List Fragment) : (liveIndices fs).Nodup :=
  (List.nodup_range fs.length).filter _

theorem getD_append_left {fs ch : List Fragment} {k : ℕ} (h : k < fs.length) :
    (fs ++ ch).getD k default = fs.getD k default := by
  rw [List.getD_eq_getElem?_getD, List.getD_eq_getElem?_getD,
    List.getElem?_append_left h]

theorem getD_append_right (fs ch : List Fragment) (k : ℕ) :
    (fs ++ ch).getD (fs.length + k) default = ch.getD k default := by
  rw [List.getD_eq_getElem?_getD, List.getD_eq_getElem?_getD,
    List.getElem?_append_right (Nat.le_add_right _ _)]
  have h : fs.length + k - fs.length = k := by omega
  rw [h]

theorem getD_set_ne (fs : List Fragment) (g : Fragment) {i k : ℕ} (h : i ≠ k) :
    (fs.set i g).getD k default = fs.getD k default := by
  rw [List.getD_eq_getElem?_getD, List.getD_eq_getElem?_getD, List.getElem?_set_ne h]

theorem getD_set_self (fs : List Fragment) (g : Fragment) {i : ℕ} (h : i < fs.length) :
    (fs.set i g).getD i default = g := by
  rw [List.getD_eq_getElem?_getD, List.getElem?_set_self h]
  rfl

theorem getD_markDead_ne (fs : List Fragment) {i k : ℕ} (h : i ≠ k) :
    (markDead fs i).getD k default = fs.getD k default :=
  getD_set_ne fs _ h

theorem getD_markDead_self (fs : List Fragment) {i : ℕ} (h : i < fs.length) :
    ((markDead fs i).getD i default).live = false := by
  unfold markDead
  rw [getD_set_self fs _ h]

theorem length_markDead (fs : List Fragment) (i : ℕ) :
    (markDead fs i).length = fs.length := List.length_set fs i _

theorem getD_mem (fs : List Fragment) {k : ℕ} (h : k < fs.length) :
    fs.getD k default ∈ fs := by
  rw [List.getD_eq_getElem?_getD, List.getElem?_eq_getElem h]
  exact List.getElem_mem h

theorem liveIndices_append_live {fs2 ch : List Fragment}
    (hch : ∀ f ∈ ch, f.live = true) :
    liveIndices (fs2 ++ ch)
      = liveIndices fs2 ++ (List.range ch.length).map (fun k => fs2.length + k) := by
  unfold liveIndices
  rw [List.length_append, List.range_add, List.filter_append]
  congr 1
  · apply List.filter_congr
    intro k hk
    rw [getD_append_left (List.mem_range.mp hk)]
  · apply List.filter_eq_self.mpr
    intro a ha
    rcases List.mem_map.mp ha with ⟨k, hk, rfl⟩
    rw [getD_append_right]
    exact hch _ (getD_mem ch (List.mem_range.mp hk))

theorem liveIndices_markDead2 {fs : List Fragment} {idx1 idx2 : ℕ}
    (h1 : idx1 < fs.length) (h2 : idx2 < fs.length) (hne : idx1 ≠ idx2) :
    liveIndices (markDead (markDead fs idx1) idx2)
      = (liveIndices fs).filter (fun k => !([idx1, idx2].contains k)) := by
  unfold liveIndices
  rw [List.filter_filter, length_markDead, length_markDead]
  apply List.filter_congr
  intro k hk
  by_cases hk1 : k = idx1
  · subst hk1
    have hdead : ((markDead (markDead fs k) idx2).getD k default).live = false := by
      rw [getD_markDead_ne _ (Ne.symm hne)]
      exact getD_markDead_self fs h1
    rw [hdead]
    have : ([k, idx2].contains k) = true := by
      simp [List.contains, List.elem_eq_mem]
    rw [this]
    rfl
  · by_cases hk2 : k = idx2
    · subst hk2
      have hdead : ((markDead (markDead fs idx1) k).getD k default).live = false :=
        getD_markDead_self _ (by rw [length_markDead]; exact h2)
      rw [hdead]
      have : ([idx1, k].contains k) = true := by
        simp [List.contains, List.elem_eq_mem]
      rw [this]
      rfl
    · have hsame : ((markDead (markDead fs idx1) idx2).getD k default)
          = fs.getD k default := by
        rw [getD_markDead_ne _ (fun h => hk2 h.symm),
          getD_markDead_ne _ (fun h => hk1 h.symm)]
      rw [hsame]
      have : ([idx1, idx2].contains k) = false := by
        simp [List.contains, List.elem_eq_mem]
        omega
      rw [this]
      simp

theorem insertFragments_draworder (s : Scene) (idx1 n1 idx2 n2 : ℕ) :
    (s.insertFragmentsIntoDrawOrder idx1 n1 idx2 n2).draworder =
      resortRange s.fragments s.draworder
        (min (s.draworder.indexOf idx1) (s.draworder.indexOf idx2))
        (max (s.draworder.indexOf idx1) (s.draworder.indexOf idx2))
        [idx1, idx2]
        ((List.range (n1 + n2)).map
          (fun k => (s.fragments.length - (n1 + n2)) + k)) := rfl

theorem insertFragments_fragments (s : Scene) (idx1 n1 idx2 n2 : ℕ) :
    (s.insertFragmentsIntoDrawOrder idx1 n1 idx2 n2).fragments = s.fragments := rfl

theorem insertFragments_mode (s : Scene) (idx1 n1 idx2 n2 : ℕ) :
    (s.insertFragmentsIntoDrawOrder idx1 n1 idx2 n2).mode = s.mode := rfl

theorem notMem_take_lo {dord : List ℕ} {x : ℕ} {p q : ℕ}
    (hp : dord.indexOf x = p) : x ∉ dord.take (min p q) := by
  intro hmem
  have := indexOf_lt_of_mem_take hmem
  rw [hp] at this
  omega

theorem notMem_drop_hi {dord : List ℕ} {x : ℕ} {p q : ℕ}
    (hnodup : dord.Nodup) (hmem : x ∈ dord)
    (hp : dord.indexOf x = p) : x ∉ dord.drop (max p q + 1) := by
  intro hdrop
  have htake : x ∈ dord.take (max p q + 1) := by
    apply mem_take_of_indexOf_lt hmem
    rw [hp]
    omega
  have hsplit : (dord.take (max p q + 1) ++ dord.drop (max p q + 1)).Nodup := by
    rw [List.take_append_drop]
    exact hnodup
  exact (List.nodup_append.mp hsplit).2.2 htake hdrop

/-- Core permutation-invariant step: marking the two split fragments
dead, appending their live children, and repairing the draw order with
`insertFragmentsIntoDrawOrder` keeps the draw order a permutation of
the live indices. -/
theorem split_insert_inv {s : Scene} {idx1 idx2 : ℕ} {ch1 ch2 : List Fragment}
    (hInv : drawOrderInv s)
    (h1 : idx1 < s.fragments.length) (h2 : idx2 < s.fragments.length)
    (hne : idx1 ≠ idx2)
    (hl1 : (s.fragments.getD idx1 default).live = true)
    (hl2 : (s.fragments.getD idx2 default).live = true)
    (hch1 : ∀ f ∈ ch1, f.live = true) (hch2 : ∀ f ∈ ch2, f.live = true) :
    drawOrderInv (Scene.insertFragmentsIntoDrawOrder
      { s with fragments := markDead (markDead s.fragments idx1) idx2 ++ ch1 ++ ch2 }
      idx1 ch1.length idx2 ch2.length) := by
  set len := s.fragments.length with hlen
  set fsD := markDead (markDead s.fragments idx1) idx2 with hfsD
  set ch := ch1 ++ ch2 with hch
  have hfsDlen : fsD.length = len := by
    rw [hfsD, length_markDead, length_markDead]
  have hfs2 : fsD ++ ch1 ++ ch2 = fsD ++ ch := by
    rw [hch, List.append_assoc]
  set fs2 := fsD ++ ch with hfs2d
  have hfs2len : fs2.length = len + ch.length := by
    rw [hfs2d, List.length_append, hfsDlen]
  set dord := s.draworder with hdord
  set p1 := dord.indexOf idx1 with hp1
  set p2 := dord.indexOf idx2 with hp2
  have hnodup : dord.Nodup := by
    rw [hdord]
    exact (hInv.nodup_iff).mpr (nodup_liveIndices s.fragments)
  have hm1 : idx1 ∈ dord := by
    rw [hdord]
    exact hInv.mem_iff.mpr (mem_liveIndices.mpr ⟨h1, hl1⟩)
  have hm2 : idx2 ∈ dord := by
    rw [hdord]
    exact hInv.mem_iff.mpr (mem_liveIndices.mpr ⟨h2, hl2⟩)
  unfold drawOrderInv
  rw [insertFragments_draworder, insertFragments_fragments]
  have hbase : (({ s with fragments := fsD ++ ch1 ++ ch2 } : Scene).fragments.length
      - (ch1.length + ch2.length)) = len := by
    show (fsD ++ ch1 ++ ch2).length - (ch1.length + ch2.length) = len
    rw [hfs2, hfs2len, hch, List.length_append]
    omega
  have hnnew : ch1.length + ch2.length = ch.length := by
    rw [hch, List.length_append]
  show (resortRange (fsD ++ ch1 ++ ch2) dord
      (min (dord.indexOf idx1) (dord.indexOf idx2))
      (max (dord.indexOf idx1) (dord.indexOf idx2)) [idx1, idx2]
      ((List.range (ch1.length + ch2.length)).map
        (fun k => ((fsD ++ ch1 ++ ch2).length - (ch1.length + ch2.length)) + k))).Perm
    (liveIndices (fsD ++ ch1 ++ ch2))
  rw [hfs2]
  have hbase2 : (fsD ++ ch).length - (ch1.length + ch2.length) = len := by
    rw [hfs2len, hch, List.length_append]
    omega
  rw [hbase2, hnnew]
  set newidx := (List.range ch.length).map (fun k => len + k) with hnewidx
  -- the resort is a permutation of (filtered old order) ++ new indices
  have hperm1 := resortRange_perm fs2 dord (min p1 p2) (max p1 p2) [idx1, idx2] newidx
  set P := fun k : ℕ => !([idx1, idx2].contains k) with hP
  have hto : dord.take (min p1 p2) = (dord.take (min p1 p2)).filter P := by
    symm
    apply List.filter_eq_self.mpr
    intro a ha
    have ha1 : a ≠ idx1 := by
      intro hx
      subst hx
      exact notMem_take_lo hp1.symm ha
    have ha2 : a ≠ idx2 := by
      intro hx
      subst hx
      exact (notMem_take_lo hp2.symm (by rwa [Nat.min_comm] at ha))
    rw [hP]
    simp [List.contains, List.elem_eq_mem]
    omega
  have hdo : dord.drop (max p1 p2 + 1) = (dord.drop (max p1 p2 + 1)).filter P := by
    symm
    apply List.filter_eq_self.mpr
    intro a ha
    have ha1 : a ≠ idx1 := by
      intro hx
      subst hx
      exact notMem_drop_hi hnodup hm1 hp1.symm ha
    have ha2 : a ≠ idx2 := by
      intro hx
      subst hx
      exact notMem_drop_hi hnodup hm2 hp2.symm (by rwa [Nat.max_comm] at ha)
    rw [hP]
    simp [List.contains, List.elem_eq_mem]
    omega
  have hfilter : dord.take (min p1 p2)
      ++ ((dord.drop (min p1 p2)).take (max p1 p2 + 1 - min p1 p2)).filter P
      ++ dord.drop (max p1 p2 + 1) = dord.filter P := by
    conv_rhs => rw [← take_region_drop dord (min p1 p2) (max p1 p2)
      (by omega : min p1 p2 ≤ max p1 p2 + 1)]
    rw [List.filter_append, List.filter_append, ← hto, ← hdo]
  have hlive2 : liveIndices fs2 = (liveIndices s.fragments).filter P ++ newidx := by
    rw [hfs2d, liveIndices_append_live (by
      intro f hf
      rcases List.mem_append.mp hf with hf | hf
      · exact hch1 f hf
      · exact hch2 f hf), hfsD, liveIndices_markDead2 h1 h2 hne, hnewidx, hfsDlen]
  have hstep := hperm1
  rw [hfilter] at hstep
  have hstep2 : (List.filter P dord ++ newidx).Perm
      (List.filter P (liveIndices s.fragments) ++ newidx) :=
    (hInv.filter P).append_right newidx
  rw [hlive2]
  exact hstep.trans hstep2

theorem resolvePair_draworder (s : Scene) (idx1 idx2 : ℕ) :
    (s.resolvePair idx1 idx2).draworder =
      resortRange s.fragments s.draworder
        (min (s.draworder.indexOf idx1) (s.draworder.indexOf idx2))
        (max (s.draworder.indexOf idx1) (s.draworder.indexOf idx2)) [] [] := rfl

theorem resolvePair_fragments (s : Scene) (idx1 idx2 : ℕ) :
    (s.resolvePair idx1 idx2).fragments = s.fragments := rfl

theorem resolvePair_mode (s : Scene) (idx1 idx2 : ℕ) :
    (s.resolvePair idx1 idx2).mode = s.mode := rfl

theorem resolvePair_inv {s : Scene} (idx1 idx2 : ℕ) (hInv : drawOrderInv s) :
    drawOrderInv (s.resolvePair idx1 idx2) := by
  unfold drawOrderInv
  rw [resolvePair_draworder, resolvePair_fragments]
  exact (resortRange_nil_perm s.fragments s.draworder _ _ (by omega)).trans hInv

theorem clipHalf_some_spec {pl : Vec3 × ℤ} {pos : Bool} {f g : Fragment}
    (h : clipHalf pl pos f = some g) :
    g.live = true ∧ g.splitDepth = f.splitDepth + 1 ∧ g.object = f.object := by
  unfold clipHalf at h
  by_cases hlt : (clipPolyHalf pl pos f.points).length < 3
  · rw [if_pos hlt] at h
    cases h
  · rw [if_neg hlt] at h
    rw [Option.some_inj] at h
    rw [← h]
    exact ⟨rfl, rfl, rfl⟩

theorem reproject_live (cam : Camera) (f : Fragment) :
    (reproject cam f).live = f.live := rfl

theorem splitChildren_spec {cam : Camera} {pl : Vec3 × ℤ} {f : Fragment} :
    ∀ g ∈ splitChildren cam pl f,
      g.live = true ∧ g.splitDepth = f.splitDepth + 1 ∧ g.object = f.object := by
  intro g hg
  unfold splitChildren at hg
  rcases List.mem_map.mp hg with ⟨x, hx, rfl⟩
  rcases List.mem_append.mp hx with hx | hx <;>
    have hsome := Option.mem_def.mp (Option.mem_toList.mp hx)
  · exact ⟨(clipHalf_some_spec hsome).1, (clipHalf_some_spec hsome).2.1,
      (clipHalf_some_spec hsome).2.2⟩
  · exact ⟨(clipHalf_some_spec hsome).1, (clipHalf_some_spec hsome).2.1,
      (clipHalf_some_spec hsome).2.2⟩

theorem splitChildren_length_le (cam : Camera) (pl : Vec3 × ℤ) (f : Fragment) :
    (splitChildren cam pl f).length ≤ 2 := by
  unfold splitChildren
  rw [List.length_map, List.length_append]
  have h1 : (clipHalf pl true f).toList.length ≤ 1 := by
    cases clipHalf pl true f <;> simp
  have h2 : (clipHalf pl false f).toList.length ≤ 1 := by
    cases clipHalf pl false f <;> simp
  omega

theorem splitPair_eq (s : Scene) (cam : Camera) (idx1 idx2 : ℕ) :
    s.splitPair cam idx1 idx2 =
      Scene.insertFragmentsIntoDrawOrder
        { s with fragments := (markDead (markDead s.fragments idx1) idx2
            ++ splitChildren cam (fragPlane (s.fragments.getD idx2 default))
                 (s.fragments.getD idx1 default)
            ++ splitChildren cam (fragPlane (s.fragments.getD idx1 default))
                 (s.fragments.getD idx2 default)) }
        idx1 (splitChildren cam (fragPlane (s.fragments.getD idx2 default))
                (s.fragments.getD idx1 default)).length
        idx2 (splitChildren cam (fragPlane (s.fragments.getD idx1 default))
                (s.fragments.getD idx2 default)).length := rfl

theorem splitPair_inv {s : Scene} {cam : Camera} {idx1 idx2 : ℕ}
    (hInv : drawOrderInv s)
    (h1 : idx1 < s.fragments.length) (h2 : idx2 < s.fragments.length)
    (hne : idx1 ≠ idx2)
    (hl1 : (s.fragments.getD idx1 default).live = true)
    (hl2 : (s.fragments.getD idx2 default).live = true) :
    drawOrderInv (s.splitPair cam idx1 idx2) := by
  rw [splitPair_eq]
  exact split_insert_inv hInv h1 h2 hne hl1 hl2
    (fun g hg => (splitChildren_spec g hg).1)
    (fun g hg => (splitChildren_spec g hg).1)

theorem findPartner_spec {st : BspState} {idx1 idx2 : ℕ}
    (h : findPartner st idx1 = some idx2) :
    idx1 < idx2 ∧ idx2 < st.scene.fragments.length
      ∧ (st.scene.fragments.getD idx1 default).live = true
      ∧ (st.scene.fragments.getD idx2 default).live = true
      ∧ ambiguousPair st.scene.fragments idx1 idx2 = true
      ∧ (st.resolved.contains (idx1, idx2)) = false := by
  have hp := List.find?_some h
  have hm := List.mem_of_find?_eq_some h
  rw [List.mem_range] at hm
  rw [Bool.and_eq_true, Bool.and_eq_true] at hp
  obtain ⟨⟨hlt, hamb⟩, hres⟩ := hp
  have hlive : (st.scene.fragments.getD idx1 default).live = true
      ∧ (st.scene.fragments.getD idx2 default).live = true := by
    unfold ambiguousPair at hamb
    rw [Bool.and_eq_true, Bool.and_eq_true, Bool.and_eq_true] at hamb
    exact ⟨hamb.1.1.1, hamb.1.1.2⟩
  refine ⟨of_decide_eq_true hlt, hm, hlive.1, hlive.2, hamb, ?_⟩
  cases hc : st.resolved.contains (idx1, idx2)
  · rfl
  · rw [hc] at hres
    cases hres

theorem splitIntersect_none {st : BspState} {idx1 : ℕ} {cam : Camera}
    (h : findPartner st idx1 = none) : splitIntersectIn3D idx1 cam st = st := by
  unfold splitIntersectIn3D
  rw [h]

theorem splitIntersect_split {st : BspState} {idx1 idx2 : ℕ} {cam : Camera}
    (h : findPartner st idx1 = some idx2)
    (hs : splitAllowed st.scene.fragments idx1 idx2 = true) :
    splitIntersectIn3D idx1 cam st = { st with scene := st.scene.splitPair cam idx1 idx2 } := by
  unfold splitIntersectIn3D
  rw [h]
  simp [hs]

theorem splitIntersect_resolve {st : BspState} {idx1 idx2 : ℕ} {cam : Camera}
    (h : findPartner st idx1 = some idx2)
    (hs : splitAllowed st.scene.fragments idx1 idx2 = false) :
    splitIntersectIn3D idx1 cam st =
      { scene := st.scene.resolvePair idx1 idx2,
        resolved := (idx1, idx2) :: st.resolved } := by
  unfold splitIntersectIn3D
  rw [h]
  simp [hs]

theorem splitIntersect_inv {idx1 : ℕ} {cam : Camera} {st : BspState}
    (hInv : drawOrderInv st.scene) :
    drawOrderInv (splitIntersectIn3D idx1 cam st).scene := by
  cases hp : findPartner st idx1 with
  | none => rw [splitIntersect_none hp]; exact hInv
  | some idx2 =>
      obtain ⟨hlt, hlen2, hl1, hl2, _, _⟩ := findPartner_spec hp
      cases hs : splitAllowed st.scene.fragments idx1 idx2 with
      | true =>
          rw [splitIntersect_split hp hs]
          exact splitPair_inv hInv (lt_trans hlt hlen2) hlen2 (Nat.ne_of_lt hlt) hl1 hl2
      | false =>
          rw [splitIntersect_resolve hp hs]
          exact resolvePair_inv idx1 idx2 hInv

theorem bspIter_inv (cam : Camera) :
    ∀ (fuel : ℕ) (st : BspState), drawOrderInv st.scene →
      drawOrderInv (bspIter cam fuel st).scene := by
  intro fuel
  induction fuel with
  | zero => intro st h; exact h
  | succ n ih =>
      intro st h
      unfold bspIter
      cases hf : findAmbIdx1 st with
      | none => exact h
      | some i => exact ih _ (splitIntersect_inv h)

theorem liveIndices_all_live {fs : List Fragment}
    (hall : ∀ f ∈ fs, f.live = true) : liveIndices fs = List.range fs.length := by
  unfold liveIndices
  apply List.filter_eq_self.mpr
  intro k hk
  rw [hall _ (getD_mem fs (List.mem_range.mp hk))]

theorem renderPainters_inv {s : Scene}
    (hall : ∀ f ∈ s.fragments, f.live = true) :
    drawOrderInv s.renderPainters := by
  unfold drawOrderInv Scene.renderPainters initialOrder
  rw [liveIndices_all_live hall]
  exact List.perm_insertionSort _ _

theorem projectOne_some_spec {cam : Camera} {v : Viewport} {g f : Fragment}
    (h : projectOneFragment cam v g = some f) :
    f.live = true ∧ f.object = g.object ∧ f.splitDepth = 0
      ∧ f.screen = projScreen cam g.points ∧ f.depths = projDepths cam g.points
      ∧ degenerateScreen g.ftype (projScreen cam g.points) = false
      ∧ outsideViewport v (projScreen cam g.points) = false := by
  unfold projectOneFragment at h
  by_cases hdeg : degenerateScreen g.ftype (projScreen cam g.points) = true
  · rw [if_pos hdeg] at h
    cases h
  · rw [if_neg hdeg] at h
    by_cases hout : outsideViewport v (projScreen cam g.points) = true
    · rw [if_pos hout] at h
      cases h
    · rw [if_neg hout] at h
      rw [Option.some_inj] at h
      rw [← h]
      exact ⟨rfl, rfl, rfl, rfl, rfl, Bool.not_eq_true _ |>.mp hdeg,
        Bool.not_eq_true _ |>.mp hout⟩

theorem projectFragments_live {cam : Camera} {v : Viewport} {input : List Fragment} :
    ∀ f ∈ projectFragments cam v input, f.live = true := by
  intro f hf
  rcases List.mem_filterMap.mp hf with ⟨g, _, hsome⟩
  exact (projectOne_some_spec hsome).1

theorem resolvePair_orderOK {s : Scene} (idx1 idx2 : ℕ) {n : ℕ}
    (hOK : orderOK n s) : orderOK n (s.resolvePair idx1 idx2) := by
  intro i j hi hj hlivei hlivej hfront
  rw [resolvePair_fragments] at hlivei hlivej hfront
  rw [resolvePair_draworder]
  exact resort_preserves_before s.fragments s.draworder _ _ [] [] (by omega)
    (hOK i j hi hj hlivei hlivej hfront) rfl rfl
    (entirelyInFront_ne hfront) (entirelyInFront_not_fineZ hfront)

theorem contains_pair_false {a idx1 idx2 : ℕ} (h1 : a ≠ idx1) (h2 : a ≠ idx2) :
    ([idx1, idx2].contains a) = false := by
  simp [List.contains, List.elem_eq_mem]
  omega

theorem splitPair_fragments (s : Scene) (cam : Camera) (idx1 idx2 : ℕ) :
    (s.splitPair cam idx1 idx2).fragments =
      markDead (markDead s.fragments idx1) idx2
        ++ splitChildren cam (fragPlane (s.fragments.getD idx2 default))
             (s.fragments.getD idx1 default)
        ++ splitChildren cam (fragPlane (s.fragments.getD idx1 default))
             (s.fragments.getD idx2 default) := rfl

theorem getD_splitPair_untouched (cam : Camera) {s : Scene} {idx1 idx2 k : ℕ}
    (hk : k < s.fragments.length) (hk1 : k ≠ idx1) (hk2 : k ≠ idx2) :
    (s.splitPair cam idx1 idx2).fragments.getD k default
      = s.fragments.getD k default := by
  rw [splitPair_fragments, List.append_assoc,
    getD_append_left (by rw [length_markDead, length_markDead]; exact hk),
    getD_markDead_ne _ (fun h => hk2 h.symm), getD_markDead_ne _ (fun h => hk1 h.symm)]

theorem splitPair_dead_idx1 {s : Scene} {cam : Camera} {idx1 idx2 : ℕ}
    (h1 : idx1 < s.fragments.length) (hne : idx1 ≠ idx2) :
    ((s.splitPair cam idx1 idx2).fragments.getD idx1 default).live = false := by
  rw [splitPair_fragments, List.append_assoc,
    getD_append_left (by rw [length_markDead, length_markDead]; exact h1),
    getD_markDead_ne _ (Ne.symm hne)]
  exact getD_markDead_self s.fragments h1

theorem splitPair_dead_idx2 {s : Scene} {cam : Camera} {idx1 idx2 : ℕ}
    (h2 : idx2 < s.fragments.length) :
    ((s.splitPair cam idx1 idx2).fragments.getD idx2 default).live = false := by
  rw [splitPair_fragments, List.append_assoc,
    getD_append_left (by rw [length_markDead, length_markDead]; exact h2)]
  exact getD_markDead_self _ (by rw [length_markDead]; exact h2)

theorem splitPair_orderOK {s : Scene} {cam : Camera} {idx1 idx2 : ℕ} {n : ℕ}
    (hn : n ≤ s.fragments.length)
    (h1 : idx1 < s.fragments.length) (h2 : idx2 < s.fragments.length)
    (hne : idx1 ≠ idx2) (hOK : orderOK n s) :
    orderOK n (s.splitPair cam idx1 idx2) := by
  intro i j hi hj hlivei hlivej hfront
  have hi1 : i ≠ idx1 := by
    intro hx
    subst hx
    rw [splitPair_dead_idx1 h1 hne] at hlivei
    cases hlivei
  have hi2 : i ≠ idx2 := by
    intro hx
    subst hx
    rw [splitPair_dead_idx2 h2] at hlivei
    cases hlivei
  have hj1 : j ≠ idx1 := by
    intro hx
    subst hx
    rw [splitPair_dead_idx1 h1 hne] at hlivej
    cases hlivej
  have hj2 : j ≠ idx2 := by
    intro hx
    subst hx
    rw [splitPair_dead_idx2 h2] at hlivej
    cases hlivej
  have hgi := getD_splitPair_untouched cam (lt_of_lt_of_le hi hn) hi1 hi2
  have hgj := getD_splitPair_untouched cam (lt_of_lt_of_le hj hn) hj1 hj2
  have hfront0 : entirelyInFront s.fragments i j := by
    unfold entirelyInFront at *
    rw [hgi, hgj] at hfront
    exact hfront
  have hold : [j, i].Sublist s.draworder :=
    hOK i j hi hj (by rw [← hgi]; exact hlivei) (by rw [← hgj]; exact hlivej) hfront0
  have hnot : ¬ fineZCompare (s.splitPair cam idx1 idx2).fragments i j :=
    entirelyInFront_not_fineZ hfront
  rw [splitPair_eq]
  rw [insertFragments_draworder]
  exact resort_preserves_before _ _ _ _ _ _ (by omega) hold
    (contains_pair_false hi1 hi2) (contains_pair_false hj1 hj2)
    (entirelyInFront_ne hfront) hnot

theorem splitPair_length_ge (s : Scene) (cam : Camera) (idx1 idx2 : ℕ) :
    s.fragments.length ≤ (s.splitPair cam idx1 idx2).fragments.length := by
  rw [splitPair_fragments, List.length_append, List.length_append,
    length_markDead, length_markDead]
  omega

theorem splitIntersect_bspInvariant {n idx1 : ℕ} {cam : Camera} {st : BspState}
    (hInv : bspInvariant n st) :
    bspInvariant n (splitIntersectIn3D idx1 cam st) := by
  obtain ⟨hn, hPerm, hOK⟩ := hInv
  cases hp : findPartner st idx1 with
  | none =>
      rw [splitIntersect_none hp]
      exact ⟨hn, hPerm, hOK⟩
  | some idx2 =>
      obtain ⟨hlt, hlen2, hl1, hl2, _, _⟩ := findPartner_spec hp
      cases hs : splitAllowed st.scene.fragments idx1 idx2 with
      | true =>
          rw [splitIntersect_split hp hs]
          exact ⟨le_trans hn (splitPair_length_ge _ _ _ _),
            splitPair_inv hPerm (lt_trans hlt hlen2) hlen2 (Nat.ne_of_lt hlt) hl1 hl2,
            splitPair_orderOK hn (lt_trans hlt hlen2) hlen2 (Nat.ne_of_lt hlt) hOK⟩
      | false =>
          rw [splitIntersect_resolve hp hs]
          exact ⟨hn, resolvePair_inv idx1 idx2 hPerm, resolvePair_orderOK idx1 idx2 hOK⟩

theorem bspIter_bspInvariant {n : ℕ} (cam : Camera) :
    ∀ (fuel : ℕ) (st : BspState), bspInvariant n st →
      bspInvariant n (bspIter cam fuel st) := by
  intro fuel
  induction fuel with
  | zero => intro st h; exact h
  | succ m ih =>
      intro st h
      unfold bspIter
      cases hf : findAmbIdx1 st with
      | none => exact h
      | some i => exact ih _ (splitIntersect_bspInvariant h)

theorem renderPainters_orderOK (s : Scene) :
    orderOK s.fragments.length s.renderPainters := by
  intro i j hi hj _ _ hfront
  have hsorted : (List.insertionSort (fineZCompare s.fragments)
      (List.range s.fragments.length)).Pairwise (fineZCompare s.fragments) :=
    List.sorted_insertionSort _ _
  have hmemi : i ∈ List.insertionSort (fineZCompare s.fragments)
      (List.range s.fragments.length) :=
    mem_insertionSort_of_mem (List.mem_range.mpr hi)
  have hmemj : j ∈ List.insertionSort (fineZCompare s.fragments)
      (List.range s.fragments.length) :=
    mem_insertionSort_of_mem (List.mem_range.mpr hj)
  exact pairwise_sublist_pair hsorted hmemj hmemi
    (entirelyInFront_ne hfront) (entirelyInFront_not_fineZ hfront)

theorem sum_set_nat (l : List ℕ) (i : ℕ) (a : ℕ) (h : i < l.length) :
    (l.set i a).sum + l.getD i 0 = l.sum + a := by
  induction l generalizing i with
  | nil => simp at h
  | cons b t ih =>
      match i with
      | 0 => simp [List.set, List.getD]; omega
      | k + 1 =>
          have hk : k < t.length := by simpa using h
          have := ih k hk
          simp [List.set, List.getD] at *
          omega

theorem getD_map_fragWeight (fs : List Fragment) {i : ℕ} (h : i < fs.length) :
    (fs.map fragWeight).getD i 0 = fragWeight (fs.getD i default) := by
  rw [List.getD_eq_getElem?_getD, List.getD_eq_getElem?_getD, List.getElem?_map,
    List.getElem?_eq_getElem h]
  rfl

theorem fragWeight_dead (f : Fragment) (h : f.live = false) : fragWeight f = 0 := by
  unfold fragWeight
  rw [h]
  rfl

theorem splitBudget_markDead (fs : List Fragment) {i : ℕ} (h : i < fs.length) :
    splitBudget (markDead fs i) + fragWeight (fs.getD i default) = splitBudget fs := by
  unfold splitBudget markDead
  rw [List.map_set]
  have hw : fragWeight { fs.getD i default with live := false } = 0 := fragWeight_dead _ rfl
  rw [hw]
  have := sum_set_nat (fs.map fragWeight) i 0 (by rw [List.length_map]; exact h)
  rw [getD_map_fragWeight fs h] at this
  omega

theorem splitBudget_append (fs ch : List Fragment) :
    splitBudget (fs ++ ch) = splitBudget fs + splitBudget ch := by
  unfold splitBudget
  rw [List.map_append, List.sum_append]

theorem sum_le_of_all_le {l : List ℕ} {u : ℕ} (h : ∀ x ∈ l, x ≤ u) :
    l.sum ≤ l.length * u := by
  induction l with
  | nil => simp
  | cons a t ih =>
      have ha := h a (List.mem_cons_self a t)
      have ht := ih fun x hx => h x (List.mem_cons_of_mem a hx)
      simp [List.sum_cons]
      calc a + t.sum ≤ u + t.length * u := by omega
        _ = (t.length + 1) * u := by ring
        _ = (a :: t).length * u := by simp

theorem splitChildren_budget (cam : Camera) (pl : Vec3 × ℤ) {f : Fragment}
    (hlive : f.live = true) (hd : f.splitDepth < maxSplitDepth) :
    splitBudget (splitChildren cam pl f) + 2 ≤ fragWeight f := by
  set u := 4 ^ (maxSplitDepth - (f.splitDepth + 1)) with hu
  have hupos : 1 ≤ u := Nat.one_le_pow _ _ (by omega)
  have hweq : fragWeight f = 4 * u := by
    unfold fragWeight
    rw [hlive]
    have : maxSplitDepth - f.splitDepth = (maxSplitDepth - (f.splitDepth + 1)) + 1 := by
      omega
    rw [if_pos rfl, this, pow_succ, hu]
    ring
  have hall : ∀ x ∈ (splitChildren cam pl f).map fragWeight, x ≤ u := by
    intro x hx
    rcases List.mem_map.mp hx with ⟨g, hg, rfl⟩
    obtain ⟨hgl, hgd, _⟩ := splitChildren_spec g hg
    unfold fragWeight
    rw [hgl, if_pos rfl, hgd]
  have hsum : splitBudget (splitChildren cam pl f)
      ≤ ((splitChildren cam pl f).map fragWeight).length * u :=
    sum_le_of_all_le hall
  rw [List.length_map] at hsum
  have hlen := splitChildren_length_le cam pl f
  have : ((splitChildren cam pl f).length) * u ≤ 2 * u :=
    Nat.mul_le_mul_right u hlen
  omega

theorem splitPair_budget (cam : Camera) {s : Scene} {idx1 idx2 : ℕ}
    (h1 : idx1 < s.fragments.length) (h2 : idx2 < s.fragments.length)
    (hne : idx1 ≠ idx2)
    (hl1 : (s.fragments.getD idx1 default).live = true)
    (hl2 : (s.fragments.getD idx2 default).live = true)
    (hd1 : (s.fragments.getD idx1 default).splitDepth < maxSplitDepth)
    (hd2 : (s.fragments.getD idx2 default).splitDepth < maxSplitDepth) :
    splitBudget (s.splitPair cam idx1 idx2).fragments + 4 ≤ splitBudget s.fragments
      ∧ (s.splitPair cam idx1 idx2).fragments.length ≤ s.fragments.length + 4 := by
  rw [splitPair_fragments, List.append_assoc]
  have hmd1 := splitBudget_markDead s.fragments h1
  have hmd2 : splitBudget (markDead (markDead s.fragments idx1) idx2)
      + fragWeight (s.fragments.getD idx2 default)
      = splitBudget (markDead s.fragments idx1) := by
    have := splitBudget_markDead (markDead s.fragments idx1)
      (i := idx2) (by rw [length_markDead]; exact h2)
    rw [getD_markDead_ne _ (Ne.symm (fun h => hne h.symm))] at this
    exact this
  have hb1 := splitChildren_budget cam
    (fragPlane (s.fragments.getD idx2 default)) hl1 hd1
  have hb2 := splitChildren_budget cam
    (fragPlane (s.fragments.getD idx1 default)) hl2 hd2
  constructor
  · rw [splitBudget_append, splitBudget_append]
    omega
  · rw [List.length_append, List.length_append, length_markDead, length_markDead]
    have hc1 := splitChildren_length_le cam
      (fragPlane (s.fragments.getD idx2 default)) (s.fragments.getD idx1 default)
    have hc2 := splitChildren_length_le cam
      (fragPlane (s.fragments.getD idx1 default)) (s.fragments.getD idx2 default)
    omega

theorem splitPair_measure {st : BspState} {cam : Camera} {idx1 idx2 : ℕ}
    (h1 : idx1 < st.scene.fragments.length) (h2 : idx2 < st.scene.fragments.length)
    (hne : idx1 ≠ idx2)
    (hl1 : (st.scene.fragments.getD idx1 default).live = true)
    (hl2 : (st.scene.fragments.getD idx2 default).live = true)
    (hd1 : (st.scene.fragments.getD idx1 default).splitDepth < maxSplitDepth)
    (hd2 : (st.scene.fragments.getD idx2 default).splitDepth < maxSplitDepth) :
    bspMeasure { st with scene := st.scene.splitPair cam idx1 idx2 } < bspMeasure st := by
  obtain ⟨hbud, hlen⟩ := splitPair_budget cam h1 h2 hne hl1 hl2 hd1 hd2
  unfold bspMeasure lenBound
  set B := splitBudget st.scene.fragments with hB
  set B2 := splitBudget (st.scene.splitPair cam idx1 idx2).fragments with hB2
  set n0 := st.scene.fragments.length with hn0
  set n2 := (st.scene.splitPair cam idx1 idx2).fragments.length with hn2
  set r := st.resolved.length with hr
  show B2 * ((n2 + 4 * B2) ^ 2 + 1) + ((n2 + 4 * B2) ^ 2 - r)
    < B * ((n0 + 4 * B) ^ 2 + 1) + ((n0 + 4 * B) ^ 2 - r)
  set L2 := n2 + 4 * B2 with hL2
  set L := n0 + 4 * B with hL
  have hLL : L2 ≤ L := by omega
  have hsq : L2 ^ 2 ≤ L ^ 2 := Nat.pow_le_pow_left hLL 2
  have hm1 : B2 * (L2 ^ 2 + 1) ≤ B2 * (L ^ 2 + 1) :=
    Nat.mul_le_mul_left B2 (by omega)
  have hm2 : (B2 + 4) * (L ^ 2 + 1) ≤ B * (L ^ 2 + 1) :=
    Nat.mul_le_mul_right _ (by omega)
  have hexp : (B2 + 4) * (L ^ 2 + 1) = B2 * (L ^ 2 + 1) + 4 * L ^ 2 + 4 := by ring
  have hsub1 : L2 ^ 2 - r ≤ L ^ 2 := by omega
  omega

theorem resolved_count_lt {st : BspState} (hWf : bspWf st)
    (hpos : 1 ≤ st.scene.fragments.length) :
    st.resolved.length < (lenBound st.scene.fragments) ^ 2 := by
  obtain ⟨hnodup, hbound⟩ := hWf
  set L := lenBound st.scene.fragments with hL
  have hlenL : st.scene.fragments.length ≤ L := by
    unfold lenBound at hL
    omega
  have hLpos : 1 ≤ L := le_trans hpos hlenL
  set T : Finset (ℕ × ℕ) := Finset.range L ×ˢ Finset.range L with hT
  set S : Finset (ℕ × ℕ) := T.filter (fun p => p.1 < p.2) with hS
  have hsub : st.resolved.toFinset ⊆ S := by
    intro p hp
    rw [List.mem_toFinset] at hp
    obtain ⟨hp1, hp2⟩ := hbound p hp
    rw [hS, Finset.mem_filter, hT, Finset.mem_product, Finset.mem_range, Finset.mem_range]
    exact ⟨⟨lt_of_lt_of_le (lt_trans hp1 hp2) hlenL,
      lt_of_lt_of_le hp2 hlenL⟩, hp1⟩
  have hssub : S ⊂ T := by
    constructor
    · exact Finset.filter_subset _ _
    · intro hTS
      have h00 : ((0, 0) : ℕ × ℕ) ∈ T := by
        rw [hT, Finset.mem_product, Finset.mem_range]
        exact ⟨hLpos, hLpos⟩
      have := hTS h00
      rw [hS, Finset.mem_filter] at this
      exact absurd this.2 (by omega)
  have hcount : st.resolved.length ≤ S.card := by
    rw [← List.toFinset_card_of_nodup hnodup]
    exact Finset.card_le_card hsub
  have hcard : S.card < T.card := Finset.card_lt_card hssub
  have hTcard : T.card = L * L := by
    rw [hT, Finset.card_product, Finset.card_range]
  have hsq : L ^ 2 = L * L := by ring
  omega

theorem resolvePair_measure {st : BspState} {idx1 idx2 : ℕ}
    (hWf : bspWf st) (h2 : idx2 < st.scene.fragments.length) :
    bspMeasure (BspState.mk (st.scene.resolvePair idx1 idx2)
      ((idx1, idx2) :: st.resolved)) < bspMeasure st := by
  have hcount := resolved_count_lt hWf (by omega)
  unfold bspMeasure
  rw [resolvePair_fragments]
  simp only [List.length_cons]
  omega

theorem splitIntersect_wf (idx1 : ℕ) (cam : Camera) {st : BspState}
    (hWf : bspWf st) : bspWf (splitIntersectIn3D idx1 cam st) := by
  obtain ⟨hnodup, hbound⟩ := hWf
  cases hp : findPartner st idx1 with
  | none =>
      rw [splitIntersect_none hp]
      exact ⟨hnodup, hbound⟩
  | some idx2 =>
      obtain ⟨hlt, hlen2, _, _, _, hres⟩ := findPartner_spec hp
      cases hs : splitAllowed st.scene.fragments idx1 idx2 with
      | true =>
          rw [splitIntersect_split hp hs]
          refine ⟨hnodup, ?_⟩
          intro p hp2
          obtain ⟨hb1, hb2⟩ := hbound p hp2
          exact ⟨hb1, lt_of_lt_of_le hb2 (splitPair_length_ge _ _ _ _)⟩
      | false =>
          rw [splitIntersect_resolve hp hs]
          refine ⟨?_, ?_⟩
          · refine List.Nodup.cons ?_ hnodup
            intro hmem
            have : st.resolved.contains (idx1, idx2) = true := by
              simp [List.contains, List.elem_eq_mem]
              exact hmem
            rw [this] at hres
            cases hres
          · intro p hp2
            rcases List.mem_cons.mp hp2 with rfl | hp3
            · exact ⟨hlt, by rw [resolvePair_fragments]; exact hlen2⟩
            · have := hbound p hp3
              rw [resolvePair_fragments]
              exact this

theorem splitIntersect_measure (idx1 : ℕ) (cam : Camera) {st : BspState}
    (hWf : bspWf st) {idx2 : ℕ} (hp : findPartner st idx1 = some idx2) :
    bspMeasure (splitIntersectIn3D idx1 cam st) < bspMeasure st := by
  obtain ⟨hlt, hlen2, hl1, hl2, _, _⟩ := findPartner_spec hp
  cases hs : splitAllowed st.scene.fragments idx1 idx2 with
  | true =>
      rw [splitIntersect_split hp hs]
      have hd : (st.scene.fragments.getD idx1 default).splitDepth < maxSplitDepth
          ∧ (st.scene.fragments.getD idx2 default).splitDepth < maxSplitDepth := by
        unfold splitAllowed at hs
        rw [Bool.and_eq_true, Bool.and_eq_true] at hs
        exact ⟨of_decide_eq_true hs.1.1, of_decide_eq_true hs.1.2⟩
      exact splitPair_measure (lt_trans hlt hlen2) hlen2 (Nat.ne_of_lt hlt)
        hl1 hl2 hd.1 hd.2
  | false =>
      rw [splitIntersect_resolve hp hs]
      exact resolvePair_measure hWf hlen2

theorem bspIter_fixpoint (cam : Camera) :
    ∀ (fuel : ℕ) (st : BspState), bspWf st → bspMeasure st < fuel →
      findAmbIdx1 (bspIter cam fuel st) = none := by
  intro fuel
  induction fuel with
  | zero => intro st _ h; omega
  | succ m ih =>
      intro st hWf hM
      unfold bspIter
      cases hf : findAmbIdx1 st with
      | none => exact hf
      | some i =>
          have hf2 := hf
          unfold findAmbIdx1 at hf2
          have hiso := List.find?_some hf2
          obtain ⟨j, hj⟩ := Option.isSome_iff_exists.mp hiso
          have hwf2 := splitIntersect_wf i cam hWf
          have hm2 := splitIntersect_measure i cam hWf hj
          exact ih _ hwf2 (by omega)

theorem sorted_resolvePair_eq {s : Scene} (idx1 idx2 : ℕ)
    (hsort : s.draworder.Pairwise (fineZCompare s.fragments)) :
    s.resolvePair idx1 idx2 = s := by
  have hkey : resortRange s.fragments s.draworder
      (min (s.draworder.indexOf idx1) (s.draworder.indexOf idx2))
      (max (s.draworder.indexOf idx1) (s.draworder.indexOf idx2)) [] []
      = s.draworder := by
    set lo := min (s.draworder.indexOf idx1) (s.draworder.indexOf idx2) with hlo
    set hi := max (s.draworder.indexOf idx1) (s.draworder.indexOf idx2) with hhi
    rw [resortRange_def]
    have hfilt : ((s.draworder.drop lo).take (hi + 1 - lo)).filter
        (fun k => !(([] : List ℕ).contains k))
        = (s.draworder.drop lo).take (hi + 1 - lo) := by
      apply List.filter_eq_self.mpr
      intro a _
      rfl
    rw [hfilt, List.append_nil]
    have hsub : ((s.draworder.drop lo).take (hi + 1 - lo)).Sublist s.draworder :=
      (List.take_sublist _ _).trans (List.drop_sublist _ _)
    have hsorted2 : ((s.draworder.drop lo).take (hi + 1 - lo)).Pairwise
        (fineZCompare s.fragments) := List.Pairwise.sublist hsub hsort
    rw [List.Sorted.insertionSort_eq hsorted2]
    exact take_region_drop s.draworder lo hi (by omega)
  show { s with draworder := resortRange s.fragments s.draworder _ _ [] [] } = s
  rw [hkey]

theorem intersectIn3D_default_right (f : Fragment) :
    intersectIn3D f default = false := by
  unfold intersectIn3D
  have h : strictlyCrosses (fragPlane f) default = false := rfl
  rw [h, Bool.and_false]

theorem intersectIn3D_default_left (f : Fragment) :
    intersectIn3D default f = false := by
  unfold intersectIn3D
  have h : strictlyCrosses (fragPlane f) default = false := rfl
  rw [h, Bool.false_and]

theorem bsp_scene_fixed (cam : Camera) {s0 : Scene}
    (hsort : s0.draworder.Pairwise (fineZCompare s0.fragments))
    (hni : ∀ a b : ℕ, a < s0.fragments.length → b < s0.fragments.length →
      intersectIn3D (s0.fragments.getD a default) (s0.fragments.getD b default) = false) :
    ∀ (fuel : ℕ) (r : List (ℕ × ℕ)), (bspIter cam fuel ⟨s0, r⟩).scene = s0 := by
  have hniall : ∀ a b : ℕ,
      intersectIn3D (s0.fragments.getD a default) (s0.fragments.getD b default) = false := by
    intro a b
    by_cases ha : a < s0.fragments.length
    · by_cases hb : b < s0.fragments.length
      · exact hni a b ha hb
      · have : s0.fragments.getD b default = default := by
          rw [List.getD_eq_getElem?_getD, List.getElem?_eq_none (by omega)]
          rfl
        rw [this]
        exact intersectIn3D_default_right _
    · have : s0.fragments.getD a default = default := by
        rw [List.getD_eq_getElem?_getD, List.getElem?_eq_none (by omega)]
        rfl
      rw [this]
      exact intersectIn3D_default_left _
  intro fuel
  induction fuel with
  | zero => intro r; rfl
  | succ m ih =>
      intro r
      unfold bspIter
      cases hf : findAmbIdx1 ⟨s0, r⟩ with
      | none => rfl
      | some i =>
          show (bspIter cam m (splitIntersectIn3D i cam ⟨s0, r⟩)).scene = s0
          cases hp : findPartner ⟨s0, r⟩ i with
          | none =>
              rw [splitIntersect_none hp]
              exact ih r
          | some j =>
              have hs : splitAllowed s0.fragments i j = false := by
                unfold splitAllowed
                rw [hniall i j, Bool.and_false]
              rw [splitIntersect_resolve hp hs, sorted_resolvePair_eq i j hsort]
              exact ih ((i, j) :: r)

theorem applySplitCmd_inv {s : Scene} {c : SplitCmd}
    (hInv : drawOrderInv s) (hV : ValidSplit s c) :
    drawOrderInv (applySplitCmd s c) := by
  obtain ⟨h1, h2, hne, hl1, hl2, hc1, hc2⟩ := hV
  exact split_insert_inv hInv h1 h2 hne hl1 hl2 hc1 hc2

theorem foldl_applySplitCmd_inv {cs : List SplitCmd} {s : Scene}
    (hInv : drawOrderInv s) (hV : ValidSeq s cs) :
    drawOrderInv (cs.foldl applySplitCmd s) := by
  induction cs generalizing s with
  | nil => exact hInv
  | cons c cs ih =>
      cases hV with
      | cons hc hcs => exact ih (applySplitCmd_inv hInv hc) hcs

theorem markDead_objects {fs : List Fragment} {i : ℕ} {g : Fragment}
    (hg : g ∈ markDead fs i) : ∃ h0 ∈ fs, g.object = h0.object := by
  by_cases hi : i < fs.length
  · rcases List.mem_or_eq_of_mem_set hg with hmem | rfl
    · exact ⟨g, hmem, rfl⟩
    · exact ⟨fs.getD i default, getD_mem fs hi, rfl⟩
  · unfold markDead at hg
    rw [List.set_eq_of_length_le (by omega)] at hg
    exact ⟨g, hg, rfl⟩

theorem splitPair_objects {s : Scene} {cam : Camera} {idx1 idx2 : ℕ}
    (h1 : idx1 < s.fragments.length) (h2 : idx2 < s.fragments.length) :
    ∀ g ∈ (s.splitPair cam idx1 idx2).fragments,
      ∃ h0 ∈ s.fragments, g.object = h0.object := by
  intro g hg
  rw [splitPair_fragments] at hg
  rcases List.mem_append.mp hg with hg | hg
  · rcases List.mem_append.mp hg with hg | hg
    · rcases markDead_objects hg with ⟨h0, hh0, hobj⟩
      rcases markDead_objects hh0 with ⟨h1', hh1, hobj1⟩
      exact ⟨h1', hh1, by rw [hobj, hobj1]⟩
    · have := (splitChildren_spec g hg).2.2
      exact ⟨s.fragments.getD idx1 default, getD_mem s.fragments h1, this⟩
  · have := (splitChildren_spec g hg).2.2
    exact ⟨s.fragments.getD idx2 default, getD_mem s.fragments h2, this⟩

theorem bspIter_objects (cam : Camera) (base : List Fragment) :
    ∀ (fuel : ℕ) (st : BspState),
      (∀ g ∈ st.scene.fragments, ∃ h0 ∈ base, g.object = h0.object) →
      ∀ g ∈ (bspIter cam fuel st).scene.fragments, ∃ h0 ∈ base, g.object = h0.object := by
  intro fuel
  induction fuel with
  | zero => intro st h; exact h
  | succ m ih =>
      intro st h
      unfold bspIter
      cases hf : findAmbIdx1 st with
      | none => exact h
      | some i =>
          apply ih
          cases hp : findPartner st i with
          | none =>
              rw [splitIntersect_none hp]
              exact h
          | some j =>
              obtain ⟨hlt, hlen2, _, _, _, _⟩ := findPartner_spec hp
              cases hs : splitAllowed st.scene.fragments i j with
              | true =>
                  rw [splitIntersect_split hp hs]
                  intro g hg
                  rcases splitPair_objects (lt_trans hlt hlen2) hlen2 g hg
                    with ⟨h0, hh0, hobj⟩
                  rcases h h0 hh0 with ⟨h1', hh1, hobj1⟩
                  exact ⟨h1', hh1, by rw [hobj, hobj1]⟩
              | false =>
                  rw [splitIntersect_resolve hp hs]
                  exact h

theorem clampQ_mem {lo hi a : ℤ} (h : lo ≤ hi) :
    lo ≤ clampQ lo hi a ∧ clampQ lo hi a ≤ hi := by
  unfold clampQ
  constructor
  · exact le_max_left lo _
  · exact max_le h (min_le_left hi a)

theorem clipPoint_mem {v : Viewport} (hx : v.x1 ≤ v.x2) (hy : v.y1 ≤ v.y2)
    (p : ℤ × ℤ) :
    v.x1 ≤ (clipPoint v p).1 ∧ (clipPoint v p).1 ≤ v.x2
      ∧ v.y1 ≤ (clipPoint v p).2 ∧ (clipPoint v p).2 ≤ v.y2 := by
  unfold clipPoint
  exact ⟨(clampQ_mem hx).1, (clampQ_mem hx).2, (clampQ_mem hy).1, (clampQ_mem hy).2⟩

theorem doDrawing_clipped {s : Scene} {v : Viewport} {ls : ℤ}
    (hx : v.x1 ≤ v.x2) (hy : v.y1 ≤ v.y2) :
    ∀ cmd ∈ s.doDrawing v ls, ∀ p ∈ cmd.pts,
      v.x1 ≤ p.1 ∧ p.1 ≤ v.x2 ∧ v.y1 ≤ p.2 ∧ p.2 ≤ v.y2 := by
  intro cmd hcmd p hp
  rcases List.mem_map.mp hcmd with ⟨i, _, rfl⟩
  rcases List.mem_map.mp hp with ⟨q, _, rfl⟩
  exact clipPoint_mem hx hy q

theorem render_construct_painters (input : List Fragment) (cam : Camera)
    (v : Viewport) (ls : ℤ) :
    (Scene.construct RenderMode.RENDER_PAINTERS).render input cam v ls
      = (Scene.mk RenderMode.RENDER_PAINTERS (projectFragments cam v input)
           (initialOrder (projectFragments cam v input)),
         (Scene.mk RenderMode.RENDER_PAINTERS (projectFragments cam v input)
           (initialOrder (projectFragments cam v input))).doDrawing v ls) := rfl

theorem render_construct_bsp (input : List Fragment) (cam : Camera)
    (v : Viewport) (ls : ℤ) :
    (Scene.construct RenderMode.RENDER_BSP).render input cam v ls
      = ((bspIter cam
            (bspFuel (Scene.mk RenderMode.RENDER_BSP (projectFragments cam v input)
              (initialOrder (projectFragments cam v input))))
            ⟨Scene.mk RenderMode.RENDER_BSP (projectFragments cam v input)
              (initialOrder (projectFragments cam v input)), []⟩).scene,
         (bspIter cam
            (bspFuel (Scene.mk RenderMode.RENDER_BSP (projectFragments cam v input)
              (initialOrder (projectFragments cam v input))))
            ⟨Scene.mk RenderMode.RENDER_BSP (projectFragments cam v input)
              (initialOrder (projectFragments cam v input)), []⟩).scene.doDrawing v ls) := rfl

theorem splitIntersect_mode (idx1 : ℕ) (cam : Camera) (st : BspState) :
    (splitIntersectIn3D idx1 cam st).scene.mode = st.scene.mode := by
  cases hp : findPartner st idx1 with
  | none => rw [splitIntersect_none hp]
  | some idx2 =>
      cases hs : splitAllowed st.scene.fragments idx1 idx2 with
      | true => rw [splitIntersect_split hp hs]; rfl
      | false => rw [splitIntersect_resolve hp hs]; rfl

theorem bspIter_mode (cam : Camera) :
    ∀ (fuel : ℕ) (st : BspState), (bspIter cam fuel st).scene.mode = st.scene.mode := by
  intro fuel
  induction fuel with
  | zero => intro st; rfl
  | succ m ih =>
      intro st
      unfold bspIter
      cases hf : findAmbIdx1 st with
      | none => rfl
      | some i => rw [ih (splitIntersectIn3D i cam st), splitIntersect_mode]

theorem renderBSP_def (s : Scene) (cam : Camera) :
    s.renderBSP cam
      = (bspIter cam (bspFuel s.renderPainters) ⟨s.renderPainters, []⟩).scene := rfl

theorem render_mode (s : Scene) (input : List Fragment) (cam : Camera)
    (v : Viewport) (ls : ℤ) : (s.render input cam v ls).1.mode = s.mode := by
  unfold Scene.render
  cases hm : s.mode
  · show (Scene.renderPainters _).mode = _
    rfl
  · show (Scene.renderBSP _ cam).mode = _
    rw [renderBSP_def, bspIter_mode]
    rfl

/-- C10: a freshly constructed Scene has `mode` equal to the
construction argument and empty fragment and draw-order buffers (from
the inline constructor in scene.h), and no operation changes `mode`
afterwards: the mode is immutable for the instance's lifetime. -/
theorem C10_construct_empty_mode_immutable :
    (∀ m : RenderMode, (Scene.construct m).mode = m
      ∧ (Scene.construct m).fragments = [] ∧ (Scene.construct m).draworder = [])
    ∧ (∀ s : Scene, (s.renderPainters).mode = s.mode)
    ∧ (∀ (s : Scene) (cam : Camera), (s.renderBSP cam).mode = s.mode)
    ∧ (∀ (s : Scene) (i n1 j n2 : ℕ),
        (s.insertFragmentsIntoDrawOrder i n1 j n2).mode = s.mode)
    ∧ (∀ (s : Scene) (i j : ℕ), (s.resolvePair i j).mode = s.mode)
    ∧ (∀ (s : Scene) (cam : Camera) (i j : ℕ), (s.splitPair cam i j).mode = s.mode)
    ∧ (∀ (st : BspState) (i : ℕ) (cam : Camera),
        (splitIntersectIn3D i cam st).scene.mode = st.scene.mode)
    ∧ (∀ (cam : Camera) (fuel : ℕ) (st : BspState),
        (bspIter cam fuel st).scene.mode = st.scene.mode)
    ∧ (∀ (s : Scene) (input : List Fragment) (cam : Camera) (v : Viewport) (ls : ℤ),
        (s.render input cam v ls).1.mode = s.mode) := by
  refine ⟨fun m => ⟨rfl, rfl, rfl⟩, fun s => rfl, ?_, fun s i n1 j n2 => rfl,
    fun s i j => rfl, fun s cam i j => rfl, fun st i cam => splitIntersect_mode i cam st,
    fun cam fuel st => bspIter_mode cam fuel st, render_mode⟩
  intro s cam
  rw [renderBSP_def, bspIter_mode]
  rfl

/-- C5: painter's mode sorts all post-clip fragments by the single
representative (farthest-point) depth, descending, so emission is
back-to-front; in the three-quad scenario (depths 1, 2, 3) the depth-3
quad is first in draw order and the depth-1 quad last, in both
modes. -/
theorem C5_painters_descending_and_scenario :
    (∀ s : Scene, (s.renderPainters).draworder.Perm (List.range s.fragments.length)
      ∧ (s.renderPainters).draworder.Pairwise
          (fun i j => (s.fragments.getD j default).maxDepth
            ≤ (s.fragments.getD i default).maxDepth))
    ∧ ((Scene.construct RenderMode.RENDER_PAINTERS).render threeQuads camO vp0 1).1.draworder
        = [2, 1, 0]
    ∧ ((Scene.construct RenderMode.RENDER_BSP).render threeQuads camO vp0 1).1.draworder
        = [2, 1, 0] := by
  refine ⟨fun s => ⟨List.perm_insertionSort _ _, ?_⟩, by decide, by decide⟩
  apply List.Pairwise.imp ?_ (List.sorted_insertionSort (fineZCompare s.fragments)
    (List.range s.fragments.length))
  intro i j hij
  rcases hij with h | ⟨h, _⟩
  · exact le_of_lt h
  · exact le_of_eq h.symm

/-- C7: rendering is deterministic — the same mode, fragments, camera,
viewport and scale always produce the same scene and the same emitted
command sequence — and depth ties are broken by the stable index rule:
on equal representative depths the lower original index is ordered
first, both in the `fineZCompare` predicate itself and in the resulting
painter draw order. -/
theorem C7_determinism_and_stable_ties :
    (∀ (m : RenderMode) (input : List Fragment) (cam : Camera) (v : Viewport) (ls : ℤ),
       (Scene.construct m).render input cam v ls = (Scene.construct m).render input cam v ls)
    ∧ (∀ (fs : List Fragment) (i j : ℕ),
        (fs.getD i default).maxDepth = (fs.getD j default).maxDepth → i ≤ j →
        fineZCompare fs i j)
    ∧ (∀ (s : Scene) (i j : ℕ), i < s.fragments.length → j < s.fragments.length →
        i < j →
        (s.fragments.getD i default).maxDepth = (s.fragments.getD j default).maxDepth →
        [i, j].Sublist (s.renderPainters).draworder) := by
  refine ⟨fun m input cam v ls => rfl, fun fs i j heq hle => Or.inr ⟨heq, hle⟩, ?_⟩
  intro s i j hi hj hij heq
  have hsorted : ((s.renderPainters).draworder).Pairwise (fineZCompare s.fragments) :=
    List.sorted_insertionSort _ _
  have hmemi : i ∈ (s.renderPainters).draworder :=
    mem_insertionSort_of_mem (List.mem_range.mpr hi)
  have hmemj : j ∈ (s.renderPainters).draworder :=
    mem_insertionSort_of_mem (List.mem_range.mpr hj)
  apply pairwise_sublist_pair hsorted hmemi hmemj (by omega)
  intro hr
  rcases hr with hr | ⟨_, hr⟩
  · rw [heq] at hr
    exact lt_irrefl _ hr
  · omega

/-- C7 witness: the tie-break rule at a concrete pair of equal-depth
fragments. -/
theorem C7_witness :
    (Scene.construct RenderMode.RENDER_BSP).render threeQuads camO vp0 1
        = (Scene.construct RenderMode.RENDER_BSP).render threeQuads camO vp0 1
      ∧ fineZCompare [liveFrag 5 0, liveFrag 5 1] 0 1
      ∧ [0, 1].Sublist
          (Scene.mk RenderMode.RENDER_PAINTERS [liveFrag 5 0, liveFrag 5 1] []).renderPainters.draworder := by
  refine ⟨C7_determinism_and_stable_ties.1 RenderMode.RENDER_BSP threeQuads camO vp0 1,
    ?_, ?_⟩
  · exact C7_determinism_and_stable_ties.2.1 [liveFrag 5 0, liveFrag 5 1] 0 1
      (by decide) (by decide)
  · exact C7_determinism_and_stable_ties.2.2
      (Scene.mk RenderMode.RENDER_PAINTERS [liveFrag 5 0, liveFrag 5 1] []) 0 1
      (by decide) (by decide) (by decide) (by decide)

/-- C9 counterexample: the declaration of `splitIntersectIn3D` in
scene.h is `void splitIntersectIn3D(unsigned idx1, const Camera& cam)`:
its parameter list has exactly two entries, `idx1` and `cam`, and no
`idx2` parameter — so the operation is not invoked on a pair of
fragment indices and does not receive the second member of a pair as an
argument. -/
theorem C9_counterexample :
    splitIntersectIn3D_declaredParams.map Prod.snd = ["idx1", "cam"]
      ∧ splitIntersectIn3D_declaredParams.length = 2
      ∧ "idx2" ∉ splitIntersectIn3D_declaredParams.map Prod.snd := by
  refine ⟨rfl, rfl, ?_⟩
  decide

/-- C9 (amended): `splitIntersectIn3D` is invoked with a single
fragment index `idx1` (plus the camera); it finds a candidate partner
`idx2` by itself — the partner found satisfies the candidate-pair
conditions (both live, projected screen footprints overlapping, depth
ranges overlapping) — and it determines whether the pair geometrically
intersects in 3D, splitting within the recursion bound and otherwise
resolving by the tie-break comparison. -/
theorem C9_partner_internal :
    ∀ (st : BspState) (idx1 idx2 : ℕ) (cam : Camera),
      findPartner st idx1 = some idx2 →
      idx1 < idx2
      ∧ (st.scene.fragments.getD idx1 default).live = true
      ∧ (st.scene.fragments.getD idx2 default).live = true
      ∧ screenOverlap (st.scene.fragments.getD idx1 default)
          (st.scene.fragments.getD idx2 default) = true
      ∧ depthOverlap (st.scene.fragments.getD idx1 default)
          (st.scene.fragments.getD idx2 default) = true
      ∧ splitIntersectIn3D idx1 cam st
          = (if splitAllowed st.scene.fragments idx1 idx2
             then { st with scene := st.scene.splitPair cam idx1 idx2 }
             else { scene := st.scene.resolvePair idx1 idx2,
                    resolved := (idx1, idx2) :: st.resolved }) := by
  intro st idx1 idx2 cam hp
  obtain ⟨hlt, _, hl1, hl2, hamb, _⟩ := findPartner_spec hp
  have hso : screenOverlap (st.scene.fragments.getD idx1 default)
      (st.scene.fragments.getD idx2 default) = true := by
    unfold ambiguousPair at hamb
    rw [Bool.and_eq_true, Bool.and_eq_true, Bool.and_eq_true] at hamb
    exact hamb.1.2
  have hdo : depthOverlap (st.scene.fragments.getD idx1 default)
      (st.scene.fragments.getD idx2 default) = true := by
    unfold ambiguousPair at hamb
    rw [Bool.and_eq_true] at hamb
    exact hamb.2
  refine ⟨hlt, hl1, hl2, hso, hdo, ?_⟩
  cases hs : splitAllowed st.scene.fragments idx1 idx2 with
  | true => rw [splitIntersect_split hp hs, if_pos rfl]
  | false =>
      rw [splitIntersect_resolve hp hs, if_neg (by intro hx; cases hx)]

/-- C9 witness: in the concrete ambiguous coplanar state the call with
the single index 0 finds partner 1 internally. -/
theorem C9_witness :
    0 < 1
    ∧ (stAmb.scene.fragments.getD 0 default).live = true
    ∧ (stAmb.scene.fragments.getD 1 default).live = true
    ∧ screenOverlap (stAmb.scene.fragments.getD 0 default)
        (stAmb.scene.fragments.getD 1 default) = true
    ∧ depthOverlap (stAmb.scene.fragments.getD 0 default)
        (stAmb.scene.fragments.getD 1 default) = true
    ∧ splitIntersectIn3D 0 camO stAmb
        = (if splitAllowed stAmb.scene.fragments 0 1
           then { stAmb with scene := stAmb.scene.splitPair camO 0 1 }
           else { scene := stAmb.scene.resolvePair 0 1,
                  resolved := (0, 1) :: stAmb.resolved }) :=
  C9_partner_internal stAmb 0 1 camO (by decide)

/-- C6: when no two projected fragments interpenetrate in 3D, a painter
scene and a BSP scene rendering the same input with the same camera and
viewport produce identical fragment buffers, identical draw orders
(hence the same relative back-to-front order of the original
fragments), and identical emitted command sequences. -/
theorem C6_mode_equivalence :
    ∀ (input : List Fragment) (cam : Camera) (v : Viewport) (ls : ℤ),
      (∀ a : ℕ, a < (projectFragments cam v input).length →
        ∀ b : ℕ, b < (projectFragments cam v input).length →
        intersectIn3D ((projectFragments cam v input).getD a default)
          ((projectFragments cam v input).getD b default) = false) →
      ((Scene.construct RenderMode.RENDER_BSP).render input cam v ls).1.fragments
          = ((Scene.construct RenderMode.RENDER_PAINTERS).render input cam v ls).1.fragments
        ∧ ((Scene.construct RenderMode.RENDER_BSP).render input cam v ls).1.draworder
          = ((Scene.construct RenderMode.RENDER_PAINTERS).render input cam v ls).1.draworder
        ∧ ((Scene.construct RenderMode.RENDER_BSP).render input cam v ls).2
          = ((Scene.construct RenderMode.RENDER_PAINTERS).render input cam v ls).2 := by
  intro input cam v ls hni
  rw [render_construct_painters, render_construct_bsp]
  set sP := Scene.mk RenderMode.RENDER_BSP (projectFragments cam v input)
    (initialOrder (projectFragments cam v input)) with hsP
  have hsort : sP.draworder.Pairwise (fineZCompare sP.fragments) :=
    List.sorted_insertionSort _ _
  have hfix := bsp_scene_fixed cam hsort
    (fun a b ha hb => hni a ha b hb) (bspFuel sP) []
  rw [hfix]
  exact ⟨rfl, rfl, rfl⟩

/-- C6 witness: the three-quad scene has no interpenetrating pair, and
the two modes agree on it. -/
theorem C6_witness :
    ((Scene.construct RenderMode.RENDER_BSP).render threeQuads camO vp0 1).1.fragments
        = ((Scene.construct RenderMode.RENDER_PAINTERS).render threeQuads camO vp0 1).1.fragments
      ∧ ((Scene.construct RenderMode.RENDER_BSP).render threeQuads camO vp0 1).1.draworder
        = ((Scene.construct RenderMode.RENDER_PAINTERS).render threeQuads camO vp0 1).1.draworder
      ∧ ((Scene.construct RenderMode.RENDER_BSP).render threeQuads camO vp0 1).2
        = ((Scene.construct RenderMode.RENDER_PAINTERS).render threeQuads camO vp0 1).2 :=
  C6_mode_equivalence threeQuads camO vp0 1 (by decide)

/-- C1: the permutation invariant — the draw order lists exactly the
currently live fragment indices, each exactly once, with no stale
(superseded) entry.  It is preserved by every valid split step, hence
holds after any sequence of splits (all intermediate states); it is
preserved at every iteration boundary of the BSP loop; and it holds
for the final state of a render in either mode. -/
theorem C1_permutation_invariant :
    (∀ (s : Scene) (c : SplitCmd), drawOrderInv s → ValidSplit s c →
       drawOrderInv (applySplitCmd s c))
    ∧ (∀ (s : Scene) (cs : List SplitCmd), drawOrderInv s → ValidSeq s cs →
       drawOrderInv (cs.foldl applySplitCmd s))
    ∧ (∀ (cam : Camera) (fuel : ℕ) (st : BspState), drawOrderInv st.scene →
       drawOrderInv (bspIter cam fuel st).scene)
    ∧ (∀ (m : RenderMode) (input : List Fragment) (cam : Camera) (v : Viewport) (ls : ℤ),
       drawOrderInv ((Scene.construct m).render input cam v ls).1) := by
  refine ⟨fun s c hInv hV => applySplitCmd_inv hInv hV,
    fun s cs hInv hV => foldl_applySplitCmd_inv hInv hV,
    fun cam fuel st hInv => bspIter_inv cam fuel st hInv, ?_⟩
  intro m input cam v ls
  cases m with
  | RENDER_PAINTERS =>
      rw [render_construct_painters]
      exact renderPainters_inv
        (s := Scene.mk RenderMode.RENDER_PAINTERS (projectFragments cam v input) [])
        projectFragments_live
  | RENDER_BSP =>
      rw [render_construct_bsp]
      exact bspIter_inv cam _ _ (renderPainters_inv
        (s := Scene.mk RenderMode.RENDER_BSP (projectFragments cam v input) [])
        projectFragments_live)

/-- C1 witness: the invariant after one concrete split step and in a
concrete render. -/
theorem C1_witness :
    drawOrderInv (applySplitCmd sceneTwo cmdTwo)
      ∧ drawOrderInv ([cmdTwo].foldl applySplitCmd sceneTwo)
      ∧ drawOrderInv ((Scene.construct RenderMode.RENDER_BSP).render threeQuads camO vp0 1).1 := by
  have hInv : drawOrderInv sceneTwo := List.isPerm_iff.mp (by decide)
  exact ⟨C1_permutation_invariant.1 sceneTwo cmdTwo hInv (by decide),
    C1_permutation_invariant.2.1 sceneTwo [cmdTwo] hInv
      (ValidSeq.cons (by decide) (ValidSeq.nil _)),
    C1_permutation_invariant.2.2.2 RenderMode.RENDER_BSP threeQuads camO vp0 1⟩

/-- C2: the back-to-front law.  For a pair of original (post-clip)
fragments i, j that do not intersect in 3D and whose depth ranges do
not overlap, with i entirely in front of j in the view direction, and
which are both still present (live) when rendering finishes, the final
draw order produced by `render` places the farther fragment j before
the nearer fragment i — in both modes and for every camera. -/
theorem C2_order_correctness :
    ∀ (m : RenderMode) (input : List Fragment) (cam : Camera) (v : Viewport)
      (ls : ℤ) (i j : ℕ),
      i < (projectFragments cam v input).length →
      j < (projectFragments cam v input).length →
      ((((Scene.construct m).render input cam v ls).1.fragments.getD i default).live = true) →
      ((((Scene.construct m).render input cam v ls).1.fragments.getD j default).live = true) →
      intersectIn3D (((Scene.construct m).render input cam v ls).1.fragments.getD i default)
        (((Scene.construct m).render input cam v ls).1.fragments.getD j default) = false →
      depthOverlap (((Scene.construct m).render input cam v ls).1.fragments.getD i default)
        (((Scene.construct m).render input cam v ls).1.fragments.getD j default) = false →
      entirelyInFront ((Scene.construct m).render input cam v ls).1.fragments i j →
      [j, i].Sublist ((Scene.construct m).render input cam v ls).1.draworder := by
  intro m input cam v ls i j hi hj hlivei hlivej _ _ hfront
  cases m with
  | RENDER_PAINTERS =>
      rw [render_construct_painters] at hlivei hlivej hfront ⊢
      exact renderPainters_orderOK
        (Scene.mk RenderMode.RENDER_PAINTERS (projectFragments cam v input) [])
        i j hi hj hlivei hlivej hfront
  | RENDER_BSP =>
      rw [render_construct_bsp] at hlivei hlivej hfront ⊢
      have hstart : bspInvariant (projectFragments cam v input).length
          ⟨Scene.mk RenderMode.RENDER_BSP (projectFragments cam v input)
            (initialOrder (projectFragments cam v input)), []⟩ := by
        refine ⟨le_refl _, ?_, ?_⟩
        · exact renderPainters_inv
            (s := Scene.mk RenderMode.RENDER_BSP (projectFragments cam v input) [])
            projectFragments_live
        · exact renderPainters_orderOK
            (Scene.mk RenderMode.RENDER_BSP (projectFragments cam v input) [])
      have hend := bspIter_bspInvariant cam
        (bspFuel (Scene.mk RenderMode.RENDER_BSP (projectFragments cam v input)
          (initialOrder (projectFragments cam v input)))) _ hstart
      exact hend.2.2 i j hi hj hlivei hlivej hfront

/-- C2 witness: in the three-quad scene, the depth-1 quad (index 0) is
entirely in front of the depth-3 quad (index 2), and BSP rendering
draws 2 before 0. -/
theorem C2_witness :
    [2, 0].Sublist ((Scene.construct RenderMode.RENDER_BSP).render threeQuads camO vp0 1).1.draworder :=
  C2_order_correctness RenderMode.RENDER_BSP threeQuads camO vp0 1 0 2
    (by decide) (by decide) (by decide) (by decide) (by decide) (by decide) (by decide)

/-- C4: BSP rendering terminates for every input.  The loop always
reaches its terminal state (no unresolved ambiguous pair remains)
within the fuel bound derived from the per-fragment split-recursion
budget — so the fixed point is reached, never nontermination — and
whenever the recursion bound bars a split, the pair is resolved by the
deterministic tie-break comparison instead of further splitting. -/
theorem C4_termination :
    (∀ (s : Scene) (cam : Camera),
       findAmbIdx1 (bspIter cam (bspFuel s.renderPainters) ⟨s.renderPainters, []⟩) = none)
    ∧ (∀ (s : Scene) (cam : Camera),
       s.renderBSP cam
         = (bspIter cam (bspFuel s.renderPainters) ⟨s.renderPainters, []⟩).scene)
    ∧ (∀ (st : BspState) (idx1 idx2 : ℕ) (cam : Camera),
        findPartner st idx1 = some idx2 →
        splitAllowed st.scene.fragments idx1 idx2 = false →
        splitIntersectIn3D idx1 cam st
          = { scene := st.scene.resolvePair idx1 idx2,
              resolved := (idx1, idx2) :: st.resolved }) := by
  refine ⟨?_, fun s cam => rfl,
    fun st idx1 idx2 cam hp hs => splitIntersect_resolve hp hs⟩
  intro s cam
  apply bspIter_fixpoint cam (bspFuel s.renderPainters) ⟨s.renderPainters, []⟩
  · exact ⟨List.nodup_nil, by intro p hp; cases hp⟩
  · exact Nat.lt_succ_self _

/-- C4 witness: the terminal state is reached on a concrete scene, and
at a concrete state whose fragments sit at the recursion bound the
ambiguous pair (0,1) is resolved by the tie-break path, not split. -/
theorem C4_witness :
    findAmbIdx1 (bspIter camO (bspFuel sceneTwo.renderPainters)
        ⟨sceneTwo.renderPainters, []⟩) = none
      ∧ splitIntersectIn3D 0 camO stDeep
          = { scene := stDeep.scene.resolvePair 0 1,
              resolved := (0, 1) :: stDeep.resolved } :=
  ⟨C4_termination.1 sceneTwo camO,
    C4_termination.2.2 stDeep 0 1 camO (by decide) (by decide)⟩

theorem projectOne_none_of_outside {cam : Camera} {v : Viewport} {f : Fragment}
    (hout : outsideViewport v (projScreen cam f.points) = true) :
    projectOneFragment cam v f = none := by
  unfold projectOneFragment
  by_cases hdeg : degenerateScreen f.ftype (projScreen cam f.points) = true
  · rw [if_pos hdeg]
  · rw [if_neg hdeg, if_pos hout]

theorem proj_object_ne {cam : Camera} {v : Viewport} {input : List Fragment}
    {f : Fragment}
    (hout : outsideViewport v (projScreen cam f.points) = true)
    (huniq : ∀ g ∈ input, g.object = f.object → g = f) :
    ∀ g ∈ projectFragments cam v input, g.object ≠ f.object := by
  intro g hg heq
  rcases List.mem_filterMap.mp hg with ⟨h0, hh0, hsome⟩
  have hobj : g.object = h0.object := (projectOne_some_spec hsome).2.1
  have hf : h0 = f := huniq h0 hh0 (by rw [← hobj, heq])
  rw [hf, projectOne_none_of_outside hout] at hsome
  cases hsome

theorem draworder_object_ne {cam : Camera} {v : Viewport} {input : List Fragment}
    {f : Fragment} (m : RenderMode)
    (hout : outsideViewport v (projScreen cam f.points) = true)
    (huniq : ∀ g ∈ input, g.object = f.object → g = f) :
    ∀ k ∈ ((Scene.construct m).render input cam v ls).1.draworder,
      (((Scene.construct m).render input cam v ls).1.fragments.getD k default).object
        ≠ f.object := by
  intro k hk
  cases m with
  | RENDER_PAINTERS =>
      rw [render_construct_painters] at hk ⊢
      have hk2 : k < (projectFragments cam v input).length := by
        have := (List.perm_insertionSort (fineZCompare (projectFragments cam v input))
          (List.range (projectFragments cam v input).length)).mem_iff.mp hk
        exact List.mem_range.mp this
      exact proj_object_ne hout huniq _ (getD_mem _ hk2)
  | RENDER_BSP =>
      rw [render_construct_bsp] at hk ⊢
      set sP := Scene.mk RenderMode.RENDER_BSP (projectFragments cam v input)
        (initialOrder (projectFragments cam v input)) with hsP
      have hInvEnd : drawOrderInv (bspIter cam (bspFuel sP) ⟨sP, []⟩).scene := by
        apply bspIter_inv
        exact renderPainters_inv
          (s := Scene.mk RenderMode.RENDER_BSP (projectFragments cam v input) [])
          projectFragments_live
      have hkl := mem_liveIndices.mp (hInvEnd.mem_iff.mp hk)
      have hobjs := bspIter_objects cam (projectFragments cam v input)
        (bspFuel sP) ⟨sP, []⟩ (fun g hg => ⟨g, hg, rfl⟩) _
        (getD_mem _ hkl.1)
      rcases hobjs with ⟨h0, hh0, hobj⟩
      rw [hobj]
      exact proj_object_ne hout huniq h0 hh0

/-- C8: clipping.  A fragment whose projection lies entirely outside
the viewport is dropped during projection, silently (the projection
returns `none`, not an error), and — when it is the only fragment of
its source object — nothing in the final draw order refers to its
object, so it gives rise to no drawing command; a fragment straddling
the boundary (not entirely outside, not degenerate) is retained; and
every point of every emitted command is clipped to lie within the
viewport rectangle. -/
theorem C8_clipping :
    ∀ (m : RenderMode) (input : List Fragment) (cam : Camera) (v : Viewport)
      (ls : ℤ) (f : Fragment),
      (outsideViewport v (projScreen cam f.points) = true →
        projectOneFragment cam v f = none)
      ∧ (outsideViewport v (projScreen cam f.points) = true →
         (∀ g ∈ input, g.object = f.object → g = f) →
         ∀ k ∈ ((Scene.construct m).render input cam v ls).1.draworder,
           (((Scene.construct m).render input cam v ls).1.fragments.getD k default).object
             ≠ f.object)
      ∧ (outsideViewport v (projScreen cam f.points) = false →
         degenerateScreen f.ftype (projScreen cam f.points) = false →
         projectOneFragment cam v f
           = some { f with screen := projScreen cam f.points,
                           depths := projDepths cam f.points,
                           splitDepth := 0, live := true })
      ∧ (v.x1 ≤ v.x2 → v.y1 ≤ v.y2 →
         ∀ cmd ∈ ((Scene.construct m).render input cam v ls).2, ∀ p ∈ cmd.pts,
           v.x1 ≤ p.1 ∧ p.1 ≤ v.x2 ∧ v.y1 ≤ p.2 ∧ p.2 ≤ v.y2) := by
  intro m input cam v ls f
  refine ⟨fun hout => projectOne_none_of_outside hout,
    fun hout huniq => draworder_object_ne m hout huniq, ?_, ?_⟩
  · intro hout hdeg
    unfold projectOneFragment
    rw [if_neg (by rw [hdeg]; intro hx; cases hx),
      if_neg (by rw [hout]; intro hx; cases hx)]
  · intro hx hy
    cases m with
    | RENDER_PAINTERS =>
        rw [render_construct_painters]
        exact doDrawing_clipped hx hy
    | RENDER_BSP =>
        rw [render_construct_bsp]
        exact doDrawing_clipped hx hy

/-- C8 witness: a quad at x-extent 20..23, entirely right of the
viewport 0..10, is dropped and contributes nothing; the in-range quad
straddling nothing is retained; all emitted points lie in the
viewport. -/
theorem C8_witness :
    (outsideViewport vp0 (projScreen camO (quadAtX 20 1 0).points) = true
      ∧ projectOneFragment camO vp0 (quadAtX 20 1 0) = none)
    ∧ (∀ k ∈ ((Scene.construct RenderMode.RENDER_PAINTERS).render
          [quadAtX 20 1 0, quadAt 1 1] camO vp0 1).1.draworder,
        (((Scene.construct RenderMode.RENDER_PAINTERS).render
          [quadAtX 20 1 0, quadAt 1 1] camO vp0 1).1.fragments.getD k default).object
          ≠ (quadAtX 20 1 0).object)
    ∧ projectOneFragment camO vp0 (quadAt 1 1)
        = some { quadAt 1 1 with screen := projScreen camO (quadAt 1 1).points,
                                 depths := projDepths camO (quadAt 1 1).points,
                                 splitDepth := 0, live := true }
    ∧ (∀ cmd ∈ ((Scene.construct RenderMode.RENDER_PAINTERS).render
          [quadAtX 20 1 0, quadAt 1 1] camO vp0 1).2, ∀ p ∈ cmd.pts,
        vp0.x1 ≤ p.1 ∧ p.1 ≤ vp0.x2 ∧ vp0.y1 ≤ p.2 ∧ p.2 ≤ vp0.y2) := by
  refine ⟨⟨by decide, ?_⟩, ?_, ?_, ?_⟩
  · exact (C8_clipping RenderMode.RENDER_PAINTERS [quadAtX 20 1 0, quadAt 1 1]
      camO vp0 1 (quadAtX 20 1 0)).1 (by decide)
  · exact (C8_clipping RenderMode.RENDER_PAINTERS [quadAtX 20 1 0, quadAt 1 1]
      camO vp0 1 (quadAtX 20 1 0)).2.1 (by decide) (by decide)
  · exact (C8_clipping RenderMode.RENDER_PAINTERS [quadAtX 20 1 0, quadAt 1 1]
      camO vp0 1 (quadAt 1 1)).2.2.1 (by decide) (by decide)
  · exact (C8_clipping RenderMode.RENDER_PAINTERS [quadAtX 20 1 0, quadAt 1 1]
      camO vp0 1 (quadAtX 20 1 0)).2.2.2 (by decide) (by decide)

/-- C3: the contract of `insertFragmentsIntoDrawOrder(idx1, newnum1,
idx2, newnum2)`, called after the two split fragments' children have
been appended at the end of the fragment buffer: the draw order becomes
prefix ++ re-sorted-region ++ suffix where prefix and suffix (everything
outside the region between the two stale positions) are unchanged, the
region is sorted by the depth predicate, its content is exactly the old
region entries minus the stale idx1/idx2 plus the new child indices
taken from the end of the buffer; the stale entries are gone from the
whole order and every new child index is present. -/
theorem C3_insert_into_draworder :
    ∀ (s : Scene) (idx1 newnum1 idx2 newnum2 : ℕ),
      s.draworder.Nodup →
      idx1 ∈ s.draworder → idx2 ∈ s.draworder →
      idx1 < s.fragments.length - (newnum1 + newnum2) →
      idx2 < s.fragments.length - (newnum1 + newnum2) →
      (s.insertFragmentsIntoDrawOrder idx1 newnum1 idx2 newnum2).draworder
          = s.draworder.take
              (min (s.draworder.indexOf idx1) (s.draworder.indexOf idx2))
            ++ List.insertionSort (fineZCompare s.fragments)
                 ((((s.draworder.drop
                       (min (s.draworder.indexOf idx1) (s.draworder.indexOf idx2))).take
                     (max (s.draworder.indexOf idx1) (s.draworder.indexOf idx2) + 1
                       - min (s.draworder.indexOf idx1) (s.draworder.indexOf idx2))).filter
                     (fun k => !([idx1, idx2].contains k)))
                   ++ (List.range (newnum1 + newnum2)).map
                        (fun k => s.fragments.length - (newnum1 + newnum2) + k))
            ++ s.draworder.drop
                 (max (s.draworder.indexOf idx1) (s.draworder.indexOf idx2) + 1)
        ∧ (List.insertionSort (fineZCompare s.fragments)
             ((((s.draworder.drop
                   (min (s.draworder.indexOf idx1) (s.draworder.indexOf idx2))).take
                 (max (s.draworder.indexOf idx1) (s.draworder.indexOf idx2) + 1
                   - min (s.draworder.indexOf idx1) (s.draworder.indexOf idx2))).filter
                 (fun k => !([idx1, idx2].contains k)))
               ++ (List.range (newnum1 + newnum2)).map
                    (fun k => s.fragments.length - (newnum1 + newnum2) + k))).Pairwise
            (fineZCompare s.fragments)
        ∧ idx1 ∉ (s.insertFragmentsIntoDrawOrder idx1 newnum1 idx2 newnum2).draworder
        ∧ idx2 ∉ (s.insertFragmentsIntoDrawOrder idx1 newnum1 idx2 newnum2).draworder
        ∧ ∀ k ∈ (List.range (newnum1 + newnum2)).map
              (fun k => s.fragments.length - (newnum1 + newnum2) + k),
            k ∈ (s.insertFragmentsIntoDrawOrder idx1 newnum1 idx2 newnum2).draworder := by
  intro s idx1 n1 idx2 n2 hnodup hm1 hm2 hb1 hb2
  set p1 := s.draworder.indexOf idx1 with hp1
  set p2 := s.draworder.indexOf idx2 with hp2
  set newidx := (List.range (n1 + n2)).map
    (fun k => s.fragments.length - (n1 + n2) + k) with hnewidx
  set kept := (((s.draworder.drop (min p1 p2)).take
    (max p1 p2 + 1 - min p1 p2)).filter
    (fun k => !([idx1, idx2].contains k))) with hkept
  set mid := List.insertionSort (fineZCompare s.fragments) (kept ++ newidx) with hmid
  have heq : (s.insertFragmentsIntoDrawOrder idx1 n1 idx2 n2).draworder
      = s.draworder.take (min p1 p2) ++ mid ++ s.draworder.drop (max p1 p2 + 1) := rfl
  have hnotmem : ∀ x : ℕ, x ∈ s.draworder → s.draworder.indexOf x ≥ min p1 p2 →
      s.draworder.indexOf x ≤ max p1 p2 →
      ([idx1, idx2].contains x) = true →
      x < s.fragments.length - (n1 + n2) →
      x ∉ (s.insertFragmentsIntoDrawOrder idx1 n1 idx2 n2).draworder := by
    intro x hmem hge hle hcont hlt hx
    rw [heq] at hx
    rcases List.mem_append.mp hx with hx | hx
    · rcases List.mem_append.mp hx with hx | hx
      · have := indexOf_lt_of_mem_take hx
        omega
      · have hx2 := (List.perm_insertionSort (fineZCompare s.fragments)
          (kept ++ newidx)).mem_iff.mp hx
        rcases List.mem_append.mp hx2 with hx3 | hx3
        · have := (List.mem_filter.mp hx3).2
          rw [hcont] at this
          cases this
        · rcases List.mem_map.mp hx3 with ⟨k, _, hk⟩
          omega
    · have htake : x ∈ s.draworder.take (max p1 p2 + 1) :=
        mem_take_of_indexOf_lt hmem (by omega)
      have hsplit : (s.draworder.take (max p1 p2 + 1)
          ++ s.draworder.drop (max p1 p2 + 1)).Nodup := by
        rw [List.take_append_drop]
        exact hnodup
      exact (List.nodup_append.mp hsplit).2.2 htake hx
  refine ⟨heq, List.sorted_insertionSort _ _, ?_, ?_, ?_⟩
  · exact hnotmem idx1 hm1 (by omega) (by omega)
      (by simp [List.contains, List.elem_eq_mem]) hb1
  · exact hnotmem idx2 hm2 (by omega) (by omega)
      (by simp [List.contains, List.elem_eq_mem]) hb2
  · intro k hk
    rw [heq]
    apply List.mem_append_left
    apply List.mem_append_right
    rw [hmid]
    exact mem_insertionSort_of_mem (List.mem_append_right _ hk)

/-- C3 witness: on the concrete four-fragment scene (children 2 and 3
appended by a split of 0 and 1), the stale entries 0 and 1 are removed
and the child indices 2 and 3 are present. -/
theorem C3_witness :
    0 ∉ (sceneFour.insertFragmentsIntoDrawOrder 0 1 1 1).draworder
      ∧ 1 ∉ (sceneFour.insertFragmentsIntoDrawOrder 0 1 1 1).draworder
      ∧ 2 ∈ (sceneFour.insertFragmentsIntoDrawOrder 0 1 1 1).draworder
      ∧ 3 ∈ (sceneFour.insertFragmentsIntoDrawOrder 0 1 1 1).draworder := by
  have h := C3_insert_into_draworder sceneFour 0 1 1 1 (by decide) (by decide)
    (by decide) (by decide) (by decide)
  exact ⟨h.2.2.1, h.2.2.2.1, h.2.2.2.2 2 (by decide), h.2.2.2.2 3 (by decide)⟩
